import Mathlib

set_option maxRecDepth 8000

namespace RouteRecognizer

/-! Shallow embedding of the route-recognizer crate (src/lib.rs and src/nfa.rs).
Strings are modelled as `List Char`; Rust's `HashSet<char>` is modelled as
`Finset Char` (its derived equality is set equality); panicking operations
(`char_at` on an empty string, `Option::unwrap`, `TreeMap::find().unwrap()`)
are modelled with `Option` results or defaults, as noted at each definition. -/

/-- `CharacterClass` from src/nfa.rs: an allow-set (`ValidChars`) or a
deny-set (`InvalidChars`) of characters. -/
inductive CharacterClass where
  | validChars (s : Finset Char)
  | invalidChars (s : Finset Char)
deriving DecidableEq

/-- `CharacterClass::any`: deny-set over the empty set, matches everything. -/
def CharacterClass.any : CharacterClass := .invalidChars ∅

/-- `CharacterClass::valid_char`: singleton allow-set. -/
def CharacterClass.valid_char (c : Char) : CharacterClass := .validChars {c}

/-- `CharacterClass::invalid_char`: singleton deny-set. -/
def CharacterClass.invalid_char (c : Char) : CharacterClass := .invalidChars {c}

/-- `CharacterClass::matches`. -/
def CharacterClass.matches : CharacterClass → Char → Bool
  | .validChars s, c => decide (c ∈ s)
  | .invalidChars s, c => decide (c ∉ s)

/-- `State<T>` from src/nfa.rs. -/
structure State (T : Type) where
  index : Nat
  chars : CharacterClass
  next_states : List Nat
  acceptance : Bool
  start_capture : Bool
  end_capture : Bool
  metadata : Option T
deriving DecidableEq

variable {T : Type}

/-- `State::new`. -/
def State.new (index : Nat) (chars : CharacterClass) : State T :=
  ⟨index, chars, [], false, false, false, none⟩

/-- `Match` from src/nfa.rs (renamed: src/lib.rs has its own `Match`). -/
structure NfaMatch where
  state : Nat
  captures : List (List Char)
deriving DecidableEq

/-- `NFA<T>` from src/nfa.rs: the append-only state arena. -/
structure NFA (T : Type) where
  states : List (State T)
deriving DecidableEq

/-- `NFA::new`: arena holding just the root state. -/
def NFA.new : NFA T := ⟨[State.new 0 CharacterClass.any]⟩

/-- Default used to totalize arena indexing (Rust indexing panics out of
bounds; in-bounds use is an invariant proved below). -/
def defaultState : State T := State.new 0 CharacterClass.any

/-- `NFA::get`: arena indexing. -/
def NFA.get (nfa : NFA T) (i : Nat) : State T := nfa.states.getD i defaultState

/-- In-place update of the element at one position (Rust `get_mut` uses). -/
def modifyIdx : List α → Nat → (α → α) → List α
  | [], _, _ => []
  | a :: as, 0, f => f a :: as
  | a :: as, n + 1, f => a :: modifyIdx as n f

/-- `get_mut`-based mutation of the state at index `i`. -/
def NFA.modify (nfa : NFA T) (i : Nat) (f : State T → State T) : NFA T :=
  ⟨modifyIdx nfa.states i f⟩

/-- `NFA::new_state`: append a fresh state to the arena, return its id. -/
def NFA.new_state (nfa : NFA T) (chars : CharacterClass) : NFA T × Nat :=
  let index := nfa.states.length
  (⟨nfa.states ++ [State.new index chars]⟩, index)

/-- `NFA::put`: return the first existing successor of `index` whose guard
equals `chars`, otherwise allocate a new state, link it and return its id. -/
def NFA.put (nfa : NFA T) (index : Nat) (chars : CharacterClass) : NFA T × Nat :=
  match (nfa.get index).next_states.find? (fun j => (nfa.get j).chars == chars) with
  | some j => (nfa, j)
  | none =>
    let p := nfa.new_state chars
    (p.1.modify index (fun st => { st with next_states := st.next_states ++ [p.2] }), p.2)

/-- `NFA::put_state`: append an existing id to a transition list (self-loops). -/
def NFA.put_state (nfa : NFA T) (index child : Nat) : NFA T :=
  nfa.modify index (fun st => { st with next_states := st.next_states ++ [child] })

/-- `NFA::acceptance`. -/
def NFA.acceptance (nfa : NFA T) (index : Nat) : NFA T :=
  nfa.modify index (fun st => { st with acceptance := true })

/-- `NFA::start_capture`. -/
def NFA.start_capture (nfa : NFA T) (index : Nat) : NFA T :=
  nfa.modify index (fun st => { st with start_capture := true })

/-- `NFA::end_capture`. -/
def NFA.end_capture (nfa : NFA T) (index : Nat) : NFA T :=
  nfa.modify index (fun st => { st with end_capture := true })

/-- `NFA::metadata`. -/
def NFA.metadata (nfa : NFA T) (index : Nat) (metadata : T) : NFA T :=
  nfa.modify index (fun st => { st with metadata := some metadata })

/-- `fork_trace` from src/nfa.rs: clone a trace and push a state's index. -/
def fork_trace (trace : List Nat) (state : State T) : List Nat :=
  trace ++ [state.index]

/-- `NFA::process_char`: one simulation generation — fork every live trace
along every transition of its last state whose guard matches `char`. -/
def NFA.process_char (nfa : NFA T) (traces : List (List Nat)) (char : Char) : List (List Nat) :=
  traces.flatMap fun trace =>
    (nfa.get (trace.getLastD 0)).next_states.filterMap fun index =>
      let state := nfa.get index
      if state.chars.matches char then some (fork_trace trace state) else none

/-- The character-consumption loop of `NFA::process`: run generations until
the input is exhausted, failing (`none`) as soon as a generation is empty. -/
def NFA.consume (nfa : NFA T) (traces : List (List Nat)) : List Char → Option (List (List Nat))
  | [] => some traces
  | c :: cs =>
    let next_traces := nfa.process_char traces c
    if next_traces.isEmpty then none else nfa.consume next_traces cs

/-- The `"Couldn't process " + string` error of `NFA::process`. -/
def noTransitionError (s : List Char) : String :=
  String.mk ("Couldn".data ++ Char.ofNat 39 :: "t process ".data ++ s)

/-- The exhaustion error of `NFA::process`. -/
def exhaustedError : String :=
  "The string was exhausted before reaching an acceptance state"

/-- Insertion step of a stable ascending sort by a comparator: the new element
is placed after every element not strictly greater than it. -/
def insertSorted (cmp : α → α → Ordering) (x : α) : List α → List α
  | [] => [x]
  | y :: ys => if cmp y x = .gt then x :: y :: ys else y :: insertSorted cmp x ys

/-- Stable ascending sort by a comparator (Rust `sort_by` is stable). -/
def sort_by (cmp : α → α → Ordering) (l : List α) : List α :=
  l.foldl (fun acc x => insertSorted cmp x acc) []

/-- Loop body of `NFA::extract_captures`: scan the trace tracking the optional
open-capture start offset. `pos` is the current trace position; `trace[pos+1]`
is the head of `rest` when `pos` is not the last position. `unwrap` on the
start offset is modelled with `getD 0` (never hit on router-built automata). -/
def NFA.ec_go (nfa : NFA T) (source : List Char) :
    Nat → List Nat → Option Nat → List (List Char) → List (List Char)
  | _, [], _, captures => captures
  | pos, state_index :: rest, start_slice, captures =>
    let state := nfa.get state_index
    let start_slice :=
      if start_slice.isNone && state.start_capture then some (pos - 1) else start_slice
    match rest with
    | next_state_index :: _ =>
      if (state_index != next_state_index) && state.end_capture then
        nfa.ec_go source (pos + 1) rest none
          (captures ++ [(source.take pos).drop (start_slice.getD 0)])
      else
        nfa.ec_go source (pos + 1) rest start_slice captures
    | [] =>
      if start_slice.isSome && state.end_capture then
        captures ++ [source.drop (start_slice.getD 0)]
      else captures

/-- `NFA::extract_captures`. -/
def NFA.extract_captures (nfa : NFA T) (source : List Char) (trace : List Nat) :
    List (List Char) :=
  nfa.ec_go source 0 trace none []

/-- `NFA::process`: simulate over the string, then filter accepting traces,
stable-sort them ascending by the comparator and pick the last as winner. -/
def NFA.process (nfa : NFA T) (s : List Char) (cmp : List Nat → List Nat → Ordering) :
    Except String NfaMatch :=
  match nfa.consume [[0]] s with
  | none => .error (noTransitionError s)
  | some current =>
    let returned := current.filter fun trace => (nfa.get (trace.getLastD 0)).acceptance
    if returned.isEmpty then .error exhaustedError
    else
      let sorted := sort_by cmp returned
      let trace := sorted.getLastD []
      let captures := nfa.extract_captures s trace
      .ok ⟨(nfa.get (trace.getLastD 0)).index, captures⟩

/-- `Metadata` from src/lib.rs (specificity record; Rust `int` is `Int`). -/
structure Metadata where
  statics : Int
  dynamics : Int
  stars : Int
  param_names : List String
deriving DecidableEq

/-- `Metadata::new`. -/
def Metadata.new : Metadata := ⟨0, 0, 0, []⟩

/-- `impl Ord for Metadata`: wildcards first, then dynamics, then statics;
strictly smaller field value orders `Greater`. -/
def Metadata.cmp (self other : Metadata) : Ordering :=
  if self.stars > other.stars then .lt
  else if self.stars < other.stars then .gt
  else if self.dynamics > other.dynamics then .lt
  else if self.dynamics < other.dynamics then .gt
  else if self.statics > other.statics then .lt
  else if self.statics < other.statics then .gt
  else .eq

/-- `impl PartialEq for Metadata`: equality on the three counters only. -/
def Metadata.peq (self other : Metadata) : Bool :=
  self.statics == other.statics && self.dynamics == other.dynamics &&
    self.stars == other.stars

/-- Sorted-association-list insert modelling `TreeMap` insertion (keyed by the
`Ord` instance of the key type). -/
def treeInsert [Ord κ] (l : List (κ × β)) (k : κ) (v : β) : List (κ × β) :=
  match l with
  | [] => [(k, v)]
  | (k', v') :: rest =>
    match compare k k' with
    | .lt => (k, v) :: (k', v') :: rest
    | .eq => (k, v) :: rest
    | .gt => (k', v') :: treeInsert rest k v

/-- `TreeMap::find` modelled as association-list lookup. -/
def treeFind [DecidableEq κ] (l : List (κ × β)) (k : κ) : Option β :=
  match l with
  | [] => none
  | (k', v') :: rest => if k = k' then some v' else treeFind rest k

/-- `Params` from src/lib.rs: a `TreeMap<String, String>`, modelled as a
key-sorted association list. -/
structure Params where
  map : List (String × String)
deriving DecidableEq

/-- `Params::new`. -/
def Params.new : Params := ⟨[]⟩

/-- `Params::insert`. -/
def Params.insert (p : Params) (key value : String) : Params :=
  ⟨treeInsert p.map key value⟩

/-- The `Index` impl on `Params`: lookup by name; the `fail!` on a missing
name is modelled as `none`. -/
def Params.find (p : Params) (key : String) : Option String :=
  treeFind p.map key

/-- `Match<T>` from src/lib.rs (renamed: src/nfa.rs has its own `Match`).
The handler is an `Option` because `recognize` obtains it through
`handlers.find(..).unwrap()`; the unwrap's success is proved below. -/
structure RouterMatch (T : Type) where
  handler : Option T
  params : Params
deriving DecidableEq

/-- `Router<T>` from src/lib.rs. -/
structure Router (T : Type) where
  nfa : NFA Metadata
  handlers : List (Nat × T)
deriving DecidableEq

/-- `Router::new`. -/
def Router.new : Router T := ⟨NFA.new, []⟩

/-- Rust `str::split('/')` on the char-list model: splitting the empty string
yields one empty segment. -/
def splitOn (sep : Char) : List Char → List (List Char)
  | [] => [[]]
  | c :: rest =>
    let r := splitOn sep rest
    if c = sep then [] :: r else (c :: r.headD []) :: r.tail

/-- `process_static_segment` from src/lib.rs. -/
def process_static_segment (segment : List Char) (nfa : NFA T) (state : Nat) :
    NFA T × Nat :=
  segment.foldl (fun p ch => p.1.put p.2 (CharacterClass.valid_char ch)) (nfa, state)

/-- `process_dynamic_segment` from src/lib.rs. -/
def process_dynamic_segment (nfa : NFA T) (state : Nat) : NFA T × Nat :=
  let p := nfa.put state (CharacterClass.invalid_char '/')
  let nfa2 := p.1.put_state p.2 p.2
  let nfa3 := nfa2.start_capture p.2
  let nfa4 := nfa3.end_capture p.2
  (nfa4, p.2)

/-- The segment loop of `Router::add` (`for (i, segment) in route.split('/')`):
a leading separator edge for every segment but the first, then a dynamic or
static segment, accumulating the `Metadata` counters and parameter names. -/
def addLoop : List (List Char) → Nat → NFA Metadata → Nat → Metadata →
    NFA Metadata × Nat × Metadata
  | [], _, nfa, state, metadata => (nfa, state, metadata)
  | segment :: rest, i, nfa, state, metadata =>
    let p :=
      if 0 < i then nfa.put state (CharacterClass.valid_char '/') else (nfa, state)
    if 0 < segment.length ∧ segment.headD ' ' = ':' then
      let q := process_dynamic_segment p.1 p.2
      addLoop rest (i + 1) q.1 q.2
        { metadata with
          dynamics := metadata.dynamics + 1,
          param_names := metadata.param_names ++ [String.mk segment.tail] }
    else
      let q := process_static_segment segment p.1 p.2
      addLoop rest (i + 1) q.1 q.2 { metadata with statics := metadata.statics + 1 }

/-- `Router::add`. Reading `route.char_at(0)` panics on the empty string, so
the result is an `Option`, `none` exactly in that case. -/
def Router.add (r : Router T) (route : List Char) (dest : T) : Option (Router T) :=
  match route with
  | [] => none
  | c :: rest =>
    let route' := if c = '/' then rest else route
    let p := addLoop (splitOn '/' route') 0 r.nfa 0 Metadata.new
    let nfa2 := p.1.acceptance p.2.1
    let nfa3 := nfa2.metadata p.2.1 p.2.2
    some ⟨nfa3, treeInsert r.handlers p.2.1 dest⟩

/-- The sort key `recognize` hands to `NFA::process`: the `Metadata` attached
to a trace's final state (`metadata.get_ref()` modelled with a default that is
never reached on accepting states, as proved below). -/
def Router.sortKey (r : Router T) (trace : List Nat) : Metadata :=
  ((r.nfa.get (trace.getLastD 0)).metadata).getD Metadata.new

/-- `Router::recognize`. Reading `path.char_at(0)` panics on the empty string,
so the result is an `Option`, `none` exactly in that case. On an NFA match the
captures are paired positionally with the recorded parameter names. -/
def Router.recognize (r : Router T) (path : List Char) :
    Option (Except String (RouterMatch T)) :=
  match path with
  | [] => none
  | c :: rest =>
    let path' := if c = '/' then rest else path
    match r.nfa.process path' (fun a b => Metadata.cmp (r.sortKey a) (r.sortKey b)) with
    | .ok nfa_match =>
      let state := r.nfa.get nfa_match.state
      let metadata := state.metadata.getD Metadata.new
      let param_names := metadata.param_names
      let map := (List.zip param_names (nfa_match.captures.map String.mk)).foldl
        (fun m p => m.insert p.1 p.2) Params.new
      some (.ok ⟨treeFind r.handlers nfa_match.state, map⟩)
    | .error e => some (.error e)

/-- Fold a list of `(pattern, handler)` registrations over `Router::add`,
failing if any single `add` fails. -/
def Router.buildFrom (r : Router T) : List (List Char × T) → Option (Router T)
  | [] => some r
  | (p, d) :: rest =>
    match r.add p d with
    | none => none
    | some r' => r'.buildFrom rest

/-- Concrete router: `"/posts/new"` registered before `"/posts/:id"`. -/
def routerStaticFirst : Router String :=
  (((Router.new.add "/posts/new".data "new").getD Router.new).add
    "/posts/:id".data "id").getD Router.new

/-- Concrete router: `"/posts/:id"` registered before `"/posts/new"`. -/
def routerDynamicFirst : Router String :=
  (((Router.new.add "/posts/:id".data "id").getD Router.new).add
    "/posts/new".data "new").getD Router.new

/-- Concrete router: only `"/posts/:id"` registered. -/
def routerId : Router String :=
  (Router.new.add "/posts/:id".data "id").getD Router.new

/-- Concrete router: only `"/"` registered, with handler `10`. -/
def routerRoot : Router Nat :=
  (Router.new.add "/".data 10).getD Router.new

/-- Concrete router: only `"/posts/:post_id/comments/:id"` registered. -/
def routerComments : Router String :=
  (Router.new.add "/posts/:post_id/comments/:id".data "comment").getD Router.new

/-- Concrete router: `"/abc"` and `"/abd"`, sharing the literal prefix `"ab"`. -/
def routerAB : Router String :=
  (((Router.new.add "/abc".data "x").getD Router.new).add "/abd".data "y").getD Router.new

/-- The comparator `Router.recognize` passes to `NFA.process`. -/
def Router.cmp (r : Router T) : List Nat → List Nat → Ordering :=
  fun a b => Metadata.cmp (r.sortKey a) (r.sortKey b)

/-- The leading-separator strip both `add` and `recognize` perform. -/
def stripLeadingSlash (path : List Char) : List Char :=
  match path with
  | [] => []
  | c :: rest => if c = '/' then rest else path

/-- The separator step at the head of each `addLoop` iteration. -/
def sepStep (nfa : NFA Metadata) (state i : Nat) : NFA Metadata × Nat :=
  if 0 < i then nfa.put state (CharacterClass.valid_char '/') else (nfa, state)

/-- The metadata accumulated for a dynamic segment. -/
def dynMeta (m : Metadata) (seg : List Char) : Metadata :=
  { m with dynamics := m.dynamics + 1,
           param_names := m.param_names ++ [String.mk seg.tail] }

/-- The metadata accumulated for a static segment. -/
def staMeta (m : Metadata) : Metadata :=
  { m with statics := m.statics + 1 }

/-- Well-formedness of the arena: non-empty, the state stored at index `i`
has id `i`, and every transition target is a valid index. -/
def NFA.WF (nfa : NFA T) : Prop :=
  0 < nfa.states.length ∧
  (∀ i, i < nfa.states.length → (nfa.get i).index = i) ∧
  (∀ s j, j ∈ (nfa.get s).next_states → j < nfa.states.length)

/-- One simulation step: `b` is a transition target of `a`. -/
def Step (nfa : NFA T) (a b : Nat) : Prop := b ∈ (nfa.get a).next_states

/-- A trace as built by `process`: starts at the root and follows
transitions. -/
def ValidTrace (nfa : NFA T) (t : List Nat) : Prop :=
  t.head? = some 0 ∧ List.Chain' (Step nfa) t

/-- The number of captures `extract_captures` closes along a trace, tracking
only whether a capture is currently open (`opened`). -/
def capCount (nfa : NFA T) : List Nat → Bool → Nat
  | [], _ => 0
  | x :: rest, opened =>
    let opened2 := opened || (nfa.get x).start_capture
    match rest with
    | next :: _ =>
      if (x != next) && (nfa.get x).end_capture then capCount nfa rest false + 1
      else capCount nfa rest opened2
    | [] => if opened2 && (nfa.get x).end_capture then 1 else 0

/-- The structural invariant of every automaton a `Router` builds: the arena
is well-formed, the root keeps its match-all guard, transitions never target
the root, the two capture flags agree, capture states are exactly the
separator-denying ones and the only self-looping ones, `cd` counts the
capture states on the unique root path of each state, and every accepting
state carries metadata whose parameter-name count is that capture count. -/
structure NfaInv (nfa : NFA Metadata) (cd : Nat → Nat) : Prop where
  wf : nfa.WF
  root_guard : (nfa.get 0).chars = CharacterClass.any
  trans_pos : ∀ s j, j ∈ (nfa.get s).next_states → 0 < j
  flags_eq : ∀ s, (nfa.get s).start_capture = (nfa.get s).end_capture
  cap_guard : ∀ s, (nfa.get s).start_capture = true ↔
      (nfa.get s).chars = CharacterClass.invalid_char '/'
  selfloop_cap : ∀ s, s ∈ (nfa.get s).next_states → (nfa.get s).start_capture = true
  cd_root : cd 0 = 0
  cd_edge : ∀ s j, j ∈ (nfa.get s).next_states → j ≠ s →
      cd j = cd s + (if (nfa.get j).start_capture then 1 else 0)
  accept_md : ∀ s, (nfa.get s).acceptance = true →
      ∃ md, (nfa.get s).metadata = some md ∧ md.param_names.length = cd s

/-- The router invariant: the automaton invariant plus a handler for every
accepting state. -/
def RouterInv (r : Router T) (cd : Nat → Nat) : Prop :=
  NfaInv r.nfa cd ∧
  ∀ s, (r.nfa.get s).acceptance = true → ∃ hd, treeFind r.handlers s = some hd

/-! Helper lemmas about the arena primitives. -/

theorem modifyIdx_length (l : List α) (i : Nat) (f : α → α) :
    (modifyIdx l i f).length = l.length := by
  induction l generalizing i with
  | nil => rfl
  | cons a as ih => cases i <;> simp [modifyIdx, ih]

theorem modifyIdx_getD_self (l : List α) (i : Nat) (f : α → α) (d : α)
    (h : i < l.length) : (modifyIdx l i f).getD i d = f (l.getD i d) := by
  induction l generalizing i with
  | nil => simp at h
  | cons a as ih =>
    cases i with
    | zero => simp [modifyIdx]
    | succ n => simpa [modifyIdx] using ih n (by simpa using h)

theorem modifyIdx_getD_ne (l : List α) (i j : Nat) (f : α → α) (d : α)
    (h : j ≠ i) : (modifyIdx l i f).getD j d = l.getD j d := by
  induction l generalizing i j with
  | nil => rfl
  | cons a as ih =>
    cases i with
    | zero => cases j with
      | zero => exact absurd rfl h
      | succ m => simp [modifyIdx]
    | succ n => cases j with
      | zero => simp [modifyIdx]
      | succ m => simpa [modifyIdx] using ih n m (by omega)

theorem modifyIdx_oob (l : List α) (i : Nat) (f : α → α) (h : l.length ≤ i) :
    modifyIdx l i f = l := by
  induction l generalizing i with
  | nil => rfl
  | cons a as ih =>
    cases i with
    | zero => simp at h
    | succ n => simpa [modifyIdx] using ih n (by simpa using h)

theorem NFA.length_modify (nfa : NFA T) (i : Nat) (f : State T → State T) :
    (nfa.modify i f).states.length = nfa.states.length :=
  modifyIdx_length _ _ _

theorem NFA.get_modify_self (nfa : NFA T) (i : Nat) (f : State T → State T)
    (h : i < nfa.states.length) : (nfa.modify i f).get i = f (nfa.get i) :=
  modifyIdx_getD_self _ _ _ _ h

theorem NFA.get_modify_ne (nfa : NFA T) (i j : Nat) (f : State T → State T)
    (h : j ≠ i) : (nfa.modify i f).get j = nfa.get j :=
  modifyIdx_getD_ne _ _ _ _ _ h

theorem NFA.modify_oob (nfa : NFA T) (i : Nat) (f : State T → State T)
    (h : nfa.states.length ≤ i) : nfa.modify i f = nfa := by
  show NFA.mk (modifyIdx nfa.states i f) = nfa
  rw [modifyIdx_oob _ _ _ h]

theorem NFA.get_oob (nfa : NFA T) (i : Nat) (h : nfa.states.length ≤ i) :
    nfa.get i = defaultState := List.getD_eq_default _ _ (by omega)

/-- `put` in the dedup case: the arena is returned unchanged together with
the first matching successor. -/
theorem NFA.put_find_some {nfa : NFA T} {f j : Nat} {c : CharacterClass}
    (h : (nfa.get f).next_states.find? (fun j => (nfa.get j).chars == c) = some j) :
    nfa.put f c = (nfa, j) := by
  unfold NFA.put
  rw [h]

/-- `put` in the allocation case, spelled out. -/
theorem NFA.put_find_none {nfa : NFA T} {f : Nat} {c : CharacterClass}
    (h : (nfa.get f).next_states.find? (fun j => (nfa.get j).chars == c) = none) :
    nfa.put f c =
      (NFA.mk (modifyIdx (nfa.states ++ [State.new nfa.states.length c]) f
        (fun st => { st with next_states := st.next_states ++ [nfa.states.length] })),
       nfa.states.length) := by
  unfold NFA.put
  rw [h]
  rfl

/-- C4: `Metadata.cmp` is a total order comparing `stars`, then `dynamics`,
then `statics`; the first differing field decides, with the strictly smaller
value ordered `Greater`; records equal on all three counters compare `Equal`
(and that agrees with the `PartialEq` instance). -/
theorem claim4_metadata_total_order :
    (∀ a : Metadata, a.cmp a = .eq)
  ∧ (∀ a b : Metadata, a.cmp b = .eq ↔
      a.stars = b.stars ∧ a.dynamics = b.dynamics ∧ a.statics = b.statics)
  ∧ (∀ a b : Metadata, (a.cmp b).swap = b.cmp a)
  ∧ (∀ a b c : Metadata, a.cmp b = .gt → b.cmp c = .gt → a.cmp c = .gt)
  ∧ (∀ a b c : Metadata, a.cmp b = .lt → b.cmp c = .lt → a.cmp c = .lt)
  ∧ (∀ a b : Metadata, a.stars < b.stars → a.cmp b = .gt)
  ∧ (∀ a b : Metadata, a.stars = b.stars → a.dynamics < b.dynamics → a.cmp b = .gt)
  ∧ (∀ a b : Metadata, a.stars = b.stars → a.dynamics = b.dynamics →
      a.statics < b.statics → a.cmp b = .gt)
  ∧ (∀ a b : Metadata, a.peq b = true ↔ a.cmp b = .eq) := by
  have hgt : ∀ a b : Metadata, a.cmp b = .gt ↔
      (a.stars < b.stars ∨ (a.stars = b.stars ∧ a.dynamics < b.dynamics) ∨
        (a.stars = b.stars ∧ a.dynamics = b.dynamics ∧ a.statics < b.statics)) := by
    intro a b
    unfold Metadata.cmp
    split_ifs <;> simp <;> omega
  have hlt : ∀ a b : Metadata, a.cmp b = .lt ↔
      (b.stars < a.stars ∨ (a.stars = b.stars ∧ b.dynamics < a.dynamics) ∨
        (a.stars = b.stars ∧ a.dynamics = b.dynamics ∧ b.statics < a.statics)) := by
    intro a b
    unfold Metadata.cmp
    split_ifs <;> simp <;> omega
  have heq : ∀ a b : Metadata, a.cmp b = .eq ↔
      (a.stars = b.stars ∧ a.dynamics = b.dynamics ∧ a.statics = b.statics) := by
    intro a b
    unfold Metadata.cmp
    split_ifs <;> simp <;> omega
  refine ⟨fun a => (heq a a).mpr ⟨rfl, rfl, rfl⟩, heq, ?_, ?_, ?_, ?_, ?_, ?_, ?_⟩
  · intro a b
    cases h : a.cmp b with
    | lt =>
      have := (hlt a b).mp h
      show Ordering.gt = b.cmp a
      exact ((hgt b a).mpr (by omega)).symm
    | eq =>
      have := (heq a b).mp h
      show Ordering.eq = b.cmp a
      exact ((heq b a).mpr (by omega)).symm
    | gt =>
      have := (hgt a b).mp h
      show Ordering.lt = b.cmp a
      exact ((hlt b a).mpr (by omega)).symm
  · intro a b c hab hbc
    have h1 := (hgt a b).mp hab
    have h2 := (hgt b c).mp hbc
    exact (hgt a c).mpr (by omega)
  · intro a b c hab hbc
    have h1 := (hlt a b).mp hab
    have h2 := (hlt b c).mp hbc
    exact (hlt a c).mpr (by omega)
  · intro a b h
    exact (hgt a b).mpr (Or.inl h)
  · intro a b h1 h2
    exact (hgt a b).mpr (Or.inr (Or.inl ⟨h1, h2⟩))
  · intro a b h1 h2 h3
    exact (hgt a b).mpr (Or.inr (Or.inr ⟨h1, h2, h3⟩))
  · intro a b
    rw [heq]
    unfold Metadata.peq
    simp only [Bool.and_eq_true, beq_iff_eq]
    constructor
    · rintro ⟨⟨h1, h2⟩, h3⟩
      exact ⟨h3, h2, h1⟩
    · rintro ⟨h1, h2, h3⟩
      exact ⟨⟨h3, h2⟩, h1⟩

/-- C4 witness: concrete applications of the order facts. -/
theorem claim4_witness :
    (Metadata.mk 0 0 1 []).cmp (Metadata.mk 0 0 2 []) = .gt
  ∧ (Metadata.mk 3 0 0 []).cmp (Metadata.mk 5 0 0 []) = .gt
  ∧ (Metadata.mk 7 1 0 []).cmp (Metadata.mk 2 2 0 []) = .gt
  ∧ (Metadata.mk 1 2 3 ["a"]).cmp (Metadata.mk 1 2 3 []) = .eq :=
  ⟨claim4_metadata_total_order.2.2.2.2.2.1 _ _ (by decide),
   claim4_metadata_total_order.2.2.2.2.2.2.2.1 _ _ rfl rfl (by decide),
   claim4_metadata_total_order.2.2.2.2.2.2.1 _ _ rfl (by decide),
   (claim4_metadata_total_order.2.1 _ _).mpr ⟨rfl, rfl, rfl⟩⟩

/-- C10: both `Router.add` and `Router.recognize` read character 0 of their
string argument before anything else, so the empty string is outside their
domain (modelled: result `none`); on any non-empty argument the initial
character access succeeds and neither operation fails this way. -/
theorem claim10_empty_input_outside_domain :
    (∀ (T : Type) (r : Router T) (dest : T), r.add [] dest = none)
  ∧ (∀ (T : Type) (r : Router T), r.recognize [] = none)
  ∧ (∀ (T : Type) (r : Router T) (dest : T) (c : Char) (s : List Char),
      (r.add (c :: s) dest).isSome = true)
  ∧ (∀ (T : Type) (r : Router T) (c : Char) (s : List Char),
      (r.recognize (c :: s)).isSome = true) := by
  refine ⟨fun T r d => rfl, fun T r => rfl, fun T r d c s => rfl, ?_⟩
  intro T r c s
  simp only [Router.recognize]
  split <;> rfl

/-- C5: `put f c` returns an existing successor of `f` guarded by `c` without
touching the arena when one exists; otherwise it allocates exactly one state
guarded by `c`, appends it to the arena, appends its id to `f`'s transition
list, and returns the new id. Consequently two registered patterns with a
common literal prefix traverse identical state ids over that prefix, as the
`/abc`-`/abd` router exhibits: five states total, a single root transition,
and divergence only at the last character. -/
theorem claim5_put_edge_dedup (T : Type) (nfa : NFA T) (f : Nat) (c : CharacterClass) :
    ((∃ j ∈ (nfa.get f).next_states, (nfa.get j).chars = c) →
      (nfa.put f c).1 = nfa ∧ (nfa.put f c).2 ∈ (nfa.get f).next_states ∧
        (nfa.get (nfa.put f c).2).chars = c)
  ∧ ((∀ j ∈ (nfa.get f).next_states, (nfa.get j).chars ≠ c) → f < nfa.states.length →
      (nfa.put f c).2 = nfa.states.length ∧
      (nfa.put f c).1.states.length = nfa.states.length + 1 ∧
      (nfa.put f c).1.get nfa.states.length = State.new nfa.states.length c ∧
      (nfa.put f c).1.get f =
        { nfa.get f with next_states := (nfa.get f).next_states ++ [nfa.states.length] } ∧
      (∀ i, i < nfa.states.length → i ≠ f → (nfa.put f c).1.get i = nfa.get i))
  ∧ (routerAB.nfa.states.length = 5
      ∧ (routerAB.nfa.get 0).next_states = [1]
      ∧ (routerAB.nfa.get 1).next_states = [2]
      ∧ (routerAB.nfa.get 2).next_states = [3, 4]
      ∧ (routerAB.nfa.get 3).chars = CharacterClass.valid_char 'c'
      ∧ (routerAB.nfa.get 4).chars = CharacterClass.valid_char 'd') := by
  refine ⟨?_, ?_, rfl, rfl, rfl, rfl, rfl, rfl⟩
  · rintro ⟨j, hj, hc⟩
    rcases hfind : (nfa.get f).next_states.find? (fun j => (nfa.get j).chars == c) with
      _ | j'
    · rw [List.find?_eq_none] at hfind
      exact absurd (by simpa using hc) (hfind j hj)
    · have h1 := List.find?_some hfind
      have h2 := List.mem_of_find?_eq_some hfind
      rw [beq_iff_eq] at h1
      rw [NFA.put_find_some hfind]
      exact ⟨rfl, h2, h1⟩
  · intro hall hf
    rcases hfind : (nfa.get f).next_states.find? (fun j => (nfa.get j).chars == c) with
      _ | j'
    · rw [NFA.put_find_none hfind]
      have hlen : (modifyIdx (nfa.states ++ [State.new nfa.states.length c]) f
          (fun st => { st with next_states := st.next_states ++ [nfa.states.length] })).length =
          nfa.states.length + 1 := by
        rw [modifyIdx_length]
        simp
      refine ⟨rfl, hlen, ?_, ?_, ?_⟩
      · show (modifyIdx (nfa.states ++ [State.new nfa.states.length c]) f _).getD
          nfa.states.length defaultState = _
        rw [modifyIdx_getD_ne _ _ _ _ _ (by omega)]
        rw [List.getD_eq_getElem?_getD]
        simp
      · have hgf : (nfa.states ++ [State.new nfa.states.length c]).getD f defaultState =
            nfa.get f := by
          rw [List.getD_eq_getElem?_getD, List.getElem?_append_left hf,
            ← List.getD_eq_getElem?_getD]
          rfl
        show (modifyIdx (nfa.states ++ [State.new nfa.states.length c]) f _).getD
          f defaultState = _
        rw [modifyIdx_getD_self _ _ _ _ (by simp; omega), hgf]
      · intro i hi hif
        show (modifyIdx (nfa.states ++ [State.new nfa.states.length c]) f _).getD
          i defaultState = _
        rw [modifyIdx_getD_ne _ _ _ _ _ hif]
        rw [List.getD_eq_getElem?_getD, List.getElem?_append_left hi,
          ← List.getD_eq_getElem?_getD]
        rfl
    · have h1 := List.find?_some hfind
      have h2 := List.mem_of_find?_eq_some hfind
      rw [beq_iff_eq] at h1
      exact absurd h1 (hall j' h2)

/-- C5 witness: allocating a fresh `'a'`-guarded state from the root of the
empty automaton. -/
theorem claim5_witness :
    ((NFA.new : NFA Unit).put 0 (CharacterClass.valid_char 'a')).2 = 1
  ∧ ((NFA.new : NFA Unit).put 0 (CharacterClass.valid_char 'a')).1.states.length = 2 := by
  have h := (claim5_put_edge_dedup Unit NFA.new 0 (CharacterClass.valid_char 'a')).2.1
    (by decide) (by decide)
  exact ⟨h.1, h.2.1⟩

theorem NFA.consume_append (nfa : NFA T) (ts : List (List Nat)) (p q : List Char) :
    nfa.consume ts (p ++ q) = (nfa.consume ts p).bind (fun ts' => nfa.consume ts' q) := by
  induction p generalizing ts with
  | nil => rfl
  | cons c cs ih =>
    show (if (nfa.process_char ts c).isEmpty then none
        else nfa.consume (nfa.process_char ts c) (cs ++ q)) =
      ((if (nfa.process_char ts c).isEmpty then none
        else nfa.consume (nfa.process_char ts c) cs).bind fun ts' => nfa.consume ts' q)
    split
    · rfl
    · exact ih _

/-- One unfolding step of `consume` when the next generation is empty. -/
theorem NFA.consume_cons_nil {nfa : NFA T} {ts : List (List Nat)} {c : Char}
    (cs : List Char) (hpc : nfa.process_char ts c = []) :
    nfa.consume ts (c :: cs) = none := by
  show (if (nfa.process_char ts c).isEmpty then none
    else nfa.consume (nfa.process_char ts c) cs) = none
  rw [hpc]
  rfl

/-- One unfolding step of `consume` when the next generation is non-empty. -/
theorem NFA.consume_cons_ne {nfa : NFA T} {ts : List (List Nat)} {c : Char}
    (cs : List Char) (hpc : nfa.process_char ts c ≠ []) :
    nfa.consume ts (c :: cs) = nfa.consume (nfa.process_char ts c) cs := by
  show (if (nfa.process_char ts c).isEmpty then none
    else nfa.consume (nfa.process_char ts c) cs) = _
  rcases h : nfa.process_char ts c with _ | ⟨t, ts2⟩
  · exact absurd h hpc
  · rfl

/-- The character loop of `process` fails exactly when some prefix of the
input still has live traces but the next character forks none of them. -/
theorem NFA.consume_none_iff (nfa : NFA T) (ts : List (List Nat)) (s : List Char) :
    nfa.consume ts s = none ↔
      ∃ p c r, s = p ++ c :: r ∧
        ∃ ts', nfa.consume ts p = some ts' ∧ nfa.process_char ts' c = [] := by
  induction s generalizing ts with
  | nil =>
    constructor
    · intro h
      exact absurd h (by simp [NFA.consume])
    · rintro ⟨p, c, r, hpcr, -⟩
      exact absurd hpcr.symm (List.append_ne_nil_of_right_ne_nil p (by simp))
  | cons c cs ih =>
    by_cases hpc : nfa.process_char ts c = []
    · exact iff_of_true (NFA.consume_cons_nil cs hpc) ⟨[], c, cs, rfl, ts, rfl, hpc⟩
    · rw [NFA.consume_cons_ne cs hpc, ih]
      constructor
      · rintro ⟨p, c', r, hcs, ts', hcons, hnil⟩
        refine ⟨c :: p, c', r, by rw [hcs]; rfl, ts', ?_, hnil⟩
        rw [NFA.consume_cons_ne p hpc]
        exact hcons
      · rintro ⟨p, c', r, hcs, ts', hcons, hnil⟩
        cases p with
        | nil =>
          have hinj : c' = c ∧ r = cs := by
            have := hcs
            simp only [List.nil_append, List.cons.injEq] at this
            exact ⟨this.1.symm, this.2.symm⟩
          obtain ⟨rfl, rfl⟩ := hinj
          obtain rfl : ts = ts' := by simpa [NFA.consume] using hcons
          exact absurd hnil hpc
        | cons c0 p' =>
          have hinj : c = c0 ∧ cs = p' ++ c' :: r := by
            have := hcs
            simp only [List.cons_append, List.cons.injEq] at this
            exact this
          obtain ⟨rfl, hcs'⟩ := hinj
          refine ⟨p', c', r, hcs', ts', ?_, hnil⟩
          rw [NFA.consume_cons_ne p' hpc] at hcons
          exact hcons

/-- `process` when the character loop dies. -/
theorem NFA.process_of_consume_none {nfa : NFA T} {s : List Char}
    {cmp : List Nat → List Nat → Ordering} (h : nfa.consume [[0]] s = none) :
    nfa.process s cmp = .error (noTransitionError s) := by
  unfold NFA.process
  rw [h]

/-- `process` when the input is exhausted with no accepting trace. -/
theorem NFA.process_of_filter_nil {nfa : NFA T} {s : List Char}
    {cmp : List Nat → List Nat → Ordering} {cur : List (List Nat)}
    (h : nfa.consume [[0]] s = some cur)
    (hf : cur.filter (fun trace => (nfa.get (trace.getLastD 0)).acceptance) = []) :
    nfa.process s cmp = .error exhaustedError := by
  unfold NFA.process
  rw [h]
  show (if (cur.filter fun trace => (nfa.get (trace.getLastD 0)).acceptance).isEmpty
    then Except.error exhaustedError else _) = _
  rw [hf]
  rfl

/-- `process` when some accepting trace survives: the sorted filter's last
trace wins. -/
theorem NFA.process_of_filter_ne {nfa : NFA T} {s : List Char}
    {cmp : List Nat → List Nat → Ordering} {cur : List (List Nat)}
    {t0 : List Nat} {rest : List (List Nat)}
    (h : nfa.consume [[0]] s = some cur)
    (hf : cur.filter (fun trace => (nfa.get (trace.getLastD 0)).acceptance) = t0 :: rest) :
    nfa.process s cmp =
      .ok ⟨(nfa.get (((sort_by cmp (t0 :: rest)).getLastD []).getLastD 0)).index,
           nfa.extract_captures s ((sort_by cmp (t0 :: rest)).getLastD [])⟩ := by
  unfold NFA.process
  rw [h]
  show (if (cur.filter fun trace => (nfa.get (trace.getLastD 0)).acceptance).isEmpty
    then Except.error exhaustedError else _) = _
  rw [hf]
  rfl

theorem getD_append_left {l l' : List α} {i : Nat} (d : α) (h : i < l.length) :
    (l ++ l').getD i d = l.getD i d := by
  rw [List.getD_eq_getElem?_getD, List.getElem?_append_left h,
    ← List.getD_eq_getElem?_getD]

/-- Complete case analysis of `put` on a valid source id: either the edge is
deduplicated and nothing changes, or exactly one new state is allocated,
appended and linked. -/
theorem NFA.put_cases (nfa : NFA T) (f : Nat) (c : CharacterClass)
    (hf : f < nfa.states.length) :
    ((nfa.put f c).1 = nfa ∧ (nfa.put f c).2 ∈ (nfa.get f).next_states ∧
      (nfa.get (nfa.put f c).2).chars = c)
  ∨ ((nfa.put f c).2 = nfa.states.length ∧
      (nfa.put f c).1.states.length = nfa.states.length + 1 ∧
      (nfa.put f c).1.get nfa.states.length = State.new nfa.states.length c ∧
      (nfa.put f c).1.get f =
        { nfa.get f with next_states := (nfa.get f).next_states ++ [nfa.states.length] } ∧
      (∀ i, i ≠ f → i ≠ nfa.states.length → (nfa.put f c).1.get i = nfa.get i)) := by
  rcases hfind : (nfa.get f).next_states.find? (fun j => (nfa.get j).chars == c) with _ | j
  · right
    rw [NFA.put_find_none hfind]
    have hgf : (nfa.states ++ [State.new nfa.states.length c]).getD f defaultState =
        nfa.get f := getD_append_left _ hf
    refine ⟨rfl, by rw [modifyIdx_length]; simp, ?_, ?_, ?_⟩
    · show (modifyIdx (nfa.states ++ [State.new nfa.states.length c]) f _).getD
        nfa.states.length defaultState = _
      rw [modifyIdx_getD_ne _ _ _ _ _ (by omega), List.getD_eq_getElem?_getD]
      simp
    · show (modifyIdx (nfa.states ++ [State.new nfa.states.length c]) f _).getD
        f defaultState = _
      rw [modifyIdx_getD_self _ _ _ _ (by simp; omega), hgf]
    · intro i hif hilen
      show (modifyIdx (nfa.states ++ [State.new nfa.states.length c]) f _).getD
        i defaultState = _
      rw [modifyIdx_getD_ne _ _ _ _ _ hif]
      by_cases hi : i < nfa.states.length
      · exact getD_append_left _ hi
      · rw [List.getD_eq_default _ _ (by simp; omega)]
        exact (nfa.get_oob i (by omega)).symm
  · left
    have h1 := List.find?_some hfind
    have h2 := List.mem_of_find?_eq_some hfind
    rw [beq_iff_eq] at h1
    rw [NFA.put_find_some hfind]
    exact ⟨rfl, h2, h1⟩

theorem NFA.WF_new : NFA.WF (NFA.new : NFA T) := by
  refine ⟨by simp [NFA.new], ?_, ?_⟩
  · intro i hi
    have : i = 0 := by
      simpa [NFA.new] using hi
    subst this
    rfl
  · intro s j hj
    rcases s with _ | n
    · simp [NFA.new, NFA.get, State.new] at hj
    · have : (NFA.new : NFA T).get (n + 1) = defaultState :=
        List.getD_eq_default _ _ (by simp [NFA.new])
      rw [this] at hj
      simp [defaultState, State.new] at hj

/-- One `modify` with an index- and transition-preserving update keeps `WF`. -/
theorem NFA.WF_setter (nfa : NFA T) (i : Nat) (f : State T → State T)
    (hidx : ∀ st, (f st).index = st.index)
    (hns : ∀ st, (f st).next_states = st.next_states)
    (h : nfa.WF) : (nfa.modify i f).WF := by
  obtain ⟨h1, h2, h3⟩ := h
  refine ⟨by rw [NFA.length_modify]; exact h1, ?_, ?_⟩
  · intro k hk
    rw [NFA.length_modify] at hk
    by_cases hki : k = i
    · subst hki
      rw [NFA.get_modify_self _ _ _ hk, hidx]
      exact h2 k hk
    · rw [NFA.get_modify_ne _ _ _ _ hki]
      exact h2 k hk
  · intro s j hj
    rw [NFA.length_modify]
    by_cases hsi : s = i
    · subst hsi
      by_cases hs : s < nfa.states.length
      · rw [NFA.get_modify_self _ _ _ hs, hns] at hj
        exact h3 s j hj
      · rw [NFA.modify_oob _ _ _ (by omega)] at hj
        exact h3 s j hj
    · rw [NFA.get_modify_ne _ _ _ _ hsi] at hj
      exact h3 s j hj

theorem NFA.WF_put (nfa : NFA T) (f : Nat) (c : CharacterClass)
    (h : nfa.WF) (hf : f < nfa.states.length) :
    (nfa.put f c).1.WF ∧ nfa.states.length ≤ (nfa.put f c).1.states.length ∧
    (nfa.put f c).2 < (nfa.put f c).1.states.length ∧
    (∀ i, i < nfa.states.length → ((nfa.put f c).1.get i).index = (nfa.get i).index) := by
  obtain ⟨h1, h2, h3⟩ := h
  rcases nfa.put_cases f c hf with ⟨e1, e2, -⟩ | ⟨e1, e2, e3, e4, e5⟩
  · rw [e1]
    exact ⟨⟨h1, h2, h3⟩, le_refl _, h3 f _ e2, fun i _ => rfl⟩
  · have hlen : nfa.states.length ≤ (nfa.put f c).1.states.length := by omega
    have hget : ∀ i, i < nfa.states.length →
        ((nfa.put f c).1.get i).index = (nfa.get i).index := by
      intro i hi
      by_cases hif : i = f
      · subst hif
        rw [e4]
      · rw [e5 i hif (by omega)]
    refine ⟨⟨by omega, ?_, ?_⟩, hlen, by omega, hget⟩
    · intro i hi
      rw [e2] at hi
      by_cases hilen : i = nfa.states.length
      · subst hilen
        rw [e3]
        rfl
      · rw [hget i (by omega)]
        exact h2 i (by omega)
    · intro s j hj
      rw [e2]
      by_cases hsf : s = f
      · subst hsf
        rw [e4] at hj
        simp only [List.mem_append, List.mem_singleton] at hj
        rcases hj with hj | hj
        · exact lt_trans (h3 s j hj) (by omega)
        · omega
      · by_cases hslen : s = nfa.states.length
        · subst hslen
          rw [e3] at hj
          simp [State.new] at hj
        · rw [e5 s hsf hslen] at hj
          exact lt_trans (h3 s j hj) (by omega)

theorem NFA.WF_put_state (nfa : NFA T) (i child : Nat)
    (hc : child < nfa.states.length) (h : nfa.WF) :
    (nfa.put_state i child).WF ∧
    (nfa.put_state i child).states.length = nfa.states.length := by
  obtain ⟨h1, h2, h3⟩ := h
  unfold NFA.put_state
  refine ⟨⟨by rw [NFA.length_modify]; exact h1, ?_, ?_⟩, NFA.length_modify _ _ _⟩
  · intro k hk
    rw [NFA.length_modify] at hk
    by_cases hki : k = i
    · subst hki
      rw [NFA.get_modify_self _ _ _ hk]
      exact h2 k hk
    · rw [NFA.get_modify_ne _ _ _ _ hki]
      exact h2 k hk
  · intro s j hj
    rw [NFA.length_modify]
    by_cases hsi : s = i
    · subst hsi
      by_cases hs : s < nfa.states.length
      · rw [NFA.get_modify_self _ _ _ hs] at hj
        simp only [List.mem_append, List.mem_singleton] at hj
        rcases hj with hj | hj
        · exact h3 s j hj
        · omega
      · rw [NFA.modify_oob _ _ _ (by omega)] at hj
        exact h3 s j hj
    · rw [NFA.get_modify_ne _ _ _ _ hsi] at hj
      exact h3 s j hj

theorem NFA.WF_acceptance (nfa : NFA T) (i : Nat) (h : nfa.WF) :
    (nfa.acceptance i).WF :=
  NFA.WF_setter nfa i _ (fun _ => rfl) (fun _ => rfl) h

theorem NFA.WF_start_capture (nfa : NFA T) (i : Nat) (h : nfa.WF) :
    (nfa.start_capture i).WF :=
  NFA.WF_setter nfa i _ (fun _ => rfl) (fun _ => rfl) h

theorem NFA.WF_end_capture (nfa : NFA T) (i : Nat) (h : nfa.WF) :
    (nfa.end_capture i).WF :=
  NFA.WF_setter nfa i _ (fun _ => rfl) (fun _ => rfl) h

theorem NFA.WF_metadata (nfa : NFA T) (i : Nat) (md : T) (h : nfa.WF) :
    (nfa.metadata i md).WF :=
  NFA.WF_setter nfa i _ (fun _ => rfl) (fun _ => rfl) h

theorem NFA.new_state_length (nfa : NFA T) (c : CharacterClass) :
    (nfa.new_state c).1.states.length = nfa.states.length + 1 := by
  simp [NFA.new_state]

theorem NFA.get_new_state_self (nfa : NFA T) (c : CharacterClass) :
    (nfa.new_state c).1.get nfa.states.length = State.new nfa.states.length c := by
  show (nfa.states ++ [State.new nfa.states.length c]).getD nfa.states.length
    defaultState = _
  rw [List.getD_eq_getElem?_getD]
  simp

theorem NFA.get_new_state_lt (nfa : NFA T) (c : CharacterClass) (i : Nat)
    (h : i < nfa.states.length) : (nfa.new_state c).1.get i = nfa.get i :=
  getD_append_left _ h

theorem NFA.get_new_state_oob (nfa : NFA T) (c : CharacterClass) (i : Nat)
    (h : nfa.states.length + 1 ≤ i) : (nfa.new_state c).1.get i = defaultState := by
  apply List.getD_eq_default
  simpa [NFA.new_state] using h

theorem NFA.WF_new_state (nfa : NFA T) (c : CharacterClass) (h : nfa.WF) :
    (nfa.new_state c).1.WF ∧
    (nfa.new_state c).1.states.length = nfa.states.length + 1 := by
  obtain ⟨h1, h2, h3⟩ := h
  refine ⟨⟨by rw [NFA.new_state_length]; omega, ?_, ?_⟩, NFA.new_state_length nfa c⟩
  · intro i hi
    rw [NFA.new_state_length] at hi
    by_cases hilen : i = nfa.states.length
    · subst hilen
      rw [NFA.get_new_state_self]
      rfl
    · rw [NFA.get_new_state_lt _ _ _ (by omega)]
      exact h2 i (by omega)
  · intro s j hj
    rw [NFA.new_state_length]
    by_cases hs : s < nfa.states.length
    · rw [NFA.get_new_state_lt _ _ _ hs] at hj
      exact lt_trans (h3 s j hj) (by omega)
    · by_cases hslen : s = nfa.states.length
      · subst hslen
        rw [NFA.get_new_state_self] at hj
        simp [State.new] at hj
      · rw [NFA.get_new_state_oob _ _ _ (by omega)] at hj
        simp [defaultState, State.new] at hj

theorem NFA.length_acceptance (nfa : NFA T) (i : Nat) :
    (nfa.acceptance i).states.length = nfa.states.length := NFA.length_modify _ _ _

theorem NFA.length_start_capture (nfa : NFA T) (i : Nat) :
    (nfa.start_capture i).states.length = nfa.states.length := NFA.length_modify _ _ _

theorem NFA.length_end_capture (nfa : NFA T) (i : Nat) :
    (nfa.end_capture i).states.length = nfa.states.length := NFA.length_modify _ _ _

theorem NFA.length_metadata (nfa : NFA T) (i : Nat) (md : T) :
    (nfa.metadata i md).states.length = nfa.states.length := NFA.length_modify _ _ _

theorem NFA.length_put_state (nfa : NFA T) (i child : Nat) :
    (nfa.put_state i child).states.length = nfa.states.length := NFA.length_modify _ _ _

theorem WF_process_static_segment (segment : List Char) :
    ∀ (nfa : NFA T) (state : Nat), nfa.WF → state < nfa.states.length →
    (process_static_segment segment nfa state).1.WF ∧
    nfa.states.length ≤ (process_static_segment segment nfa state).1.states.length ∧
    (process_static_segment segment nfa state).2 <
      (process_static_segment segment nfa state).1.states.length := by
  induction segment with
  | nil => exact fun nfa state h hs => ⟨h, le_refl _, hs⟩
  | cons ch rest ih =>
    intro nfa state h hs
    have hstep : process_static_segment (ch :: rest) nfa state =
        process_static_segment rest (nfa.put state (CharacterClass.valid_char ch)).1
          (nfa.put state (CharacterClass.valid_char ch)).2 := rfl
    rw [hstep]
    obtain ⟨hWF, hle, hlt, -⟩ := nfa.WF_put state (CharacterClass.valid_char ch) h hs
    obtain ⟨a, b, cc⟩ := ih _ _ hWF hlt
    exact ⟨a, le_trans hle b, cc⟩

theorem WF_process_dynamic_segment (nfa : NFA T) (state : Nat)
    (h : nfa.WF) (hs : state < nfa.states.length) :
    (process_dynamic_segment nfa state).1.WF ∧
    nfa.states.length ≤ (process_dynamic_segment nfa state).1.states.length ∧
    (process_dynamic_segment nfa state).2 <
      (process_dynamic_segment nfa state).1.states.length := by
  obtain ⟨hWF1, hle1, hlt1, -⟩ := nfa.WF_put state (CharacterClass.invalid_char '/') h hs
  obtain ⟨hWF2, hlen2⟩ := NFA.WF_put_state _ _ _ hlt1 hWF1
  have hWF3 := NFA.WF_start_capture _
    (nfa.put state (CharacterClass.invalid_char '/')).2 hWF2
  have hWF4 := NFA.WF_end_capture _
    (nfa.put state (CharacterClass.invalid_char '/')).2 hWF3
  refine ⟨hWF4, ?_, ?_⟩
  · show nfa.states.length ≤ ((((nfa.put state (CharacterClass.invalid_char '/')).1.put_state
      _ _).start_capture _).end_capture _).states.length
    rw [NFA.length_end_capture, NFA.length_start_capture, NFA.length_put_state]
    exact hle1
  · show (nfa.put state (CharacterClass.invalid_char '/')).2 <
      ((((nfa.put state (CharacterClass.invalid_char '/')).1.put_state
        _ _).start_capture _).end_capture _).states.length
    rw [NFA.length_end_capture, NFA.length_start_capture, NFA.length_put_state]
    exact hlt1

theorem addLoop_cons (seg : List Char) (rest : List (List Char)) (i : Nat)
    (nfa : NFA Metadata) (state : Nat) (m : Metadata) :
    addLoop (seg :: rest) i nfa state m =
      if 0 < seg.length ∧ seg.headD ' ' = ':' then
        addLoop rest (i + 1)
          (process_dynamic_segment (sepStep nfa state i).1 (sepStep nfa state i).2).1
          (process_dynamic_segment (sepStep nfa state i).1 (sepStep nfa state i).2).2
          (dynMeta m seg)
      else
        addLoop rest (i + 1)
          (process_static_segment seg (sepStep nfa state i).1 (sepStep nfa state i).2).1
          (process_static_segment seg (sepStep nfa state i).1 (sepStep nfa state i).2).2
          (staMeta m) := by
  show (if 0 < seg.length ∧ seg.headD ' ' = ':' then _ else _) = _
  split <;> rfl

theorem WF_sepStep (nfa : NFA Metadata) (state i : Nat)
    (h : nfa.WF) (hs : state < nfa.states.length) :
    (sepStep nfa state i).1.WF ∧
    nfa.states.length ≤ (sepStep nfa state i).1.states.length ∧
    (sepStep nfa state i).2 < (sepStep nfa state i).1.states.length := by
  unfold sepStep
  by_cases hi : 0 < i
  · rw [if_pos hi]
    obtain ⟨a, b, cc, -⟩ := nfa.WF_put state (CharacterClass.valid_char '/') h hs
    exact ⟨a, b, cc⟩
  · rw [if_neg hi]
    exact ⟨h, le_refl _, hs⟩

theorem WF_addLoop (segs : List (List Char)) :
    ∀ (i : Nat) (nfa : NFA Metadata) (state : Nat) (m : Metadata),
    nfa.WF → state < nfa.states.length →
    (addLoop segs i nfa state m).1.WF ∧
    nfa.states.length ≤ (addLoop segs i nfa state m).1.states.length ∧
    (addLoop segs i nfa state m).2.1 < (addLoop segs i nfa state m).1.states.length := by
  induction segs with
  | nil => exact fun i nfa state m h hs => ⟨h, le_refl _, hs⟩
  | cons seg rest ih =>
    intro i nfa state m h hs
    obtain ⟨hpWF, hple, hplt⟩ := WF_sepStep nfa state i h hs
    rw [addLoop_cons]
    by_cases hseg : 0 < seg.length ∧ seg.headD ' ' = ':'
    · rw [if_pos hseg]
      obtain ⟨a, b, cc⟩ := WF_process_dynamic_segment _ _ hpWF hplt
      obtain ⟨d, e, f⟩ := ih (i + 1) _ _ _ a cc
      exact ⟨d, le_trans hple (le_trans b e), f⟩
    · rw [if_neg hseg]
      obtain ⟨a, b, cc⟩ := WF_process_static_segment seg _ _ hpWF hplt
      obtain ⟨d, e, f⟩ := ih (i + 1) _ _ _ a cc
      exact ⟨d, le_trans hple (le_trans b e), f⟩

theorem Router.WF_add (r : Router T) (route : List Char) (dest : T) (r' : Router T)
    (h : r.nfa.WF) (hadd : r.add route dest = some r') :
    r'.nfa.WF ∧ r.nfa.states.length ≤ r'.nfa.states.length := by
  cases route with
  | nil => exact absurd hadd (by simp [Router.add])
  | cons c rest =>
    have hr' : r' = ⟨((addLoop (splitOn '/' (if c = '/' then rest else c :: rest)) 0
          r.nfa 0 Metadata.new).1.acceptance
          (addLoop (splitOn '/' (if c = '/' then rest else c :: rest)) 0
            r.nfa 0 Metadata.new).2.1).metadata
          (addLoop (splitOn '/' (if c = '/' then rest else c :: rest)) 0
            r.nfa 0 Metadata.new).2.1
          (addLoop (splitOn '/' (if c = '/' then rest else c :: rest)) 0
            r.nfa 0 Metadata.new).2.2,
        treeInsert r.handlers
          (addLoop (splitOn '/' (if c = '/' then rest else c :: rest)) 0
            r.nfa 0 Metadata.new).2.1 dest⟩ := by
      have := hadd
      simp only [Router.add, Option.some.injEq] at this
      exact this.symm
    obtain ⟨a, b, cc⟩ := WF_addLoop (splitOn '/' (if c = '/' then rest else c :: rest))
      0 r.nfa 0 Metadata.new h h.1
    subst hr'
    constructor
    · exact NFA.WF_metadata _ _ _ (NFA.WF_acceptance _ _ a)
    · show r.nfa.states.length ≤ (NFA.metadata _ _ _).states.length
      rw [NFA.length_metadata, NFA.length_acceptance]
      exact b

theorem NFA.process_char_bounded (nfa : NFA T) (h : nfa.WF) (ts : List (List Nat))
    (c : Char) (hts : ∀ t ∈ ts, ∀ x ∈ t, x < nfa.states.length) :
    ∀ t' ∈ nfa.process_char ts c, ∀ x ∈ t', x < nfa.states.length := by
  intro t' ht' x hx
  simp only [NFA.process_char, List.mem_flatMap, List.mem_filterMap] at ht'
  obtain ⟨t, ht, j, hj, hj2⟩ := ht'
  by_cases hm : (nfa.get j).chars.matches c
  · rw [if_pos hm] at hj2
    have ht' : fork_trace t (nfa.get j) = t' := by injection hj2
    subst ht'
    rcases List.mem_append.mp hx with hx | hx
    · exact hts t ht x hx
    · obtain rfl : x = (nfa.get j).index := by simpa using hx
      have hjlt : j < nfa.states.length := h.2.2 _ j hj
      rw [h.2.1 j hjlt]
      exact hjlt
  · rw [if_neg hm] at hj2
    exact absurd hj2 (by simp)

theorem NFA.consume_bounded (nfa : NFA T) (h : nfa.WF) (s : List Char) :
    ∀ (ts cur : List (List Nat)), (∀ t ∈ ts, ∀ x ∈ t, x < nfa.states.length) →
    nfa.consume ts s = some cur → ∀ t ∈ cur, ∀ x ∈ t, x < nfa.states.length := by
  induction s with
  | nil =>
    intro ts cur hts hc
    obtain rfl : ts = cur := by simpa [NFA.consume] using hc
    exact hts
  | cons c cs ih =>
    intro ts cur hts hc
    by_cases hpc : nfa.process_char ts c = []
    · rw [NFA.consume_cons_nil cs hpc] at hc
      exact absurd hc (by simp)
    · rw [NFA.consume_cons_ne cs hpc] at hc
      exact ih _ _ (nfa.process_char_bounded h ts c hts) hc

/-- C9: the arena invariants — non-empty with the root at index 0, the state
stored at index `i` has id `i`, states only ever appended (ids and length
monotone preserved), every transition target in bounds — hold for the fresh
automaton and are preserved by every mutating operation (on valid ids) and by
every successful `Router.add`; consequently every generation of traces the
simulation builds from the root only mentions in-bounds state ids. -/
theorem claim9_arena_invariants (T : Type) :
    NFA.WF (NFA.new : NFA T)
  ∧ (∀ nfa : NFA T, nfa.WF →
      0 < nfa.states.length ∧ (nfa.get 0).index = 0
      ∧ (∀ i, i < nfa.states.length → (nfa.get i).index = i)
      ∧ (∀ s j, j ∈ (nfa.get s).next_states → j < nfa.states.length))
  ∧ (∀ (nfa : NFA T) c, nfa.WF → (nfa.new_state c).1.WF ∧
      (nfa.new_state c).1.states.length = nfa.states.length + 1)
  ∧ (∀ (nfa : NFA T) f c, nfa.WF → f < nfa.states.length →
      (nfa.put f c).1.WF ∧ nfa.states.length ≤ (nfa.put f c).1.states.length ∧
      (nfa.put f c).2 < (nfa.put f c).1.states.length ∧
      (∀ i, i < nfa.states.length → ((nfa.put f c).1.get i).index = (nfa.get i).index))
  ∧ (∀ (nfa : NFA T) i child, nfa.WF → child < nfa.states.length →
      (nfa.put_state i child).WF ∧
      (nfa.put_state i child).states.length = nfa.states.length)
  ∧ (∀ (nfa : NFA T) i, nfa.WF →
      (nfa.acceptance i).WF ∧ (nfa.acceptance i).states.length = nfa.states.length
      ∧ (nfa.start_capture i).WF
      ∧ (nfa.start_capture i).states.length = nfa.states.length
      ∧ (nfa.end_capture i).WF
      ∧ (nfa.end_capture i).states.length = nfa.states.length)
  ∧ (∀ (nfa : NFA T) i (md : T), nfa.WF →
      (nfa.metadata i md).WF ∧ (nfa.metadata i md).states.length = nfa.states.length)
  ∧ (∀ (R : Type) (r : Router R) route dest r', r.nfa.WF → r.add route dest = some r' →
      r'.nfa.WF ∧ r.nfa.states.length ≤ r'.nfa.states.length)
  ∧ (∀ nfa : NFA T, nfa.WF → ∀ ts c, (∀ t ∈ ts, ∀ x ∈ t, x < nfa.states.length) →
      ∀ t' ∈ nfa.process_char ts c, ∀ x ∈ t', x < nfa.states.length)
  ∧ (∀ nfa : NFA T, nfa.WF → ∀ s ts cur, (∀ t ∈ ts, ∀ x ∈ t, x < nfa.states.length) →
      nfa.consume ts s = some cur → ∀ t ∈ cur, ∀ x ∈ t, x < nfa.states.length) := by
  refine ⟨NFA.WF_new, ?_, ?_, ?_, ?_, ?_, ?_, ?_, ?_, ?_⟩
  · intro nfa h
    refine ⟨h.1, ?_, h.2.1, h.2.2⟩
    rw [h.2.1 0 h.1]
  · exact fun nfa c h => NFA.WF_new_state nfa c h
  · exact fun nfa f c h hf => NFA.WF_put nfa f c h hf
  · exact fun nfa i child h hc => NFA.WF_put_state nfa i child hc h
  · exact fun nfa i h =>
      ⟨NFA.WF_acceptance nfa i h, NFA.length_acceptance nfa i,
       NFA.WF_start_capture nfa i h, NFA.length_start_capture nfa i,
       NFA.WF_end_capture nfa i h, NFA.length_end_capture nfa i⟩
  · exact fun nfa i md h => ⟨NFA.WF_metadata nfa i md h, NFA.length_metadata nfa i md⟩
  · exact fun R r route dest r' h hadd => Router.WF_add r route dest r' h hadd
  · exact fun nfa h ts c hts => nfa.process_char_bounded h ts c hts
  · exact fun nfa h s ts cur hts hc => nfa.consume_bounded h s ts cur hts hc

/-- C9 witness: the invariants concretely after one allocation from the fresh
automaton. -/
theorem claim9_witness :
    ((NFA.new : NFA Unit).put 0 (CharacterClass.valid_char 'a')).1.WF
  ∧ ((NFA.new : NFA Unit).put 0 (CharacterClass.valid_char 'a')).2 <
      ((NFA.new : NFA Unit).put 0 (CharacterClass.valid_char 'a')).1.states.length := by
  have h := (claim9_arena_invariants Unit).2.2.2.1 NFA.new 0 (CharacterClass.valid_char 'a')
    (claim9_arena_invariants Unit).1 (by decide)
  exact ⟨h.1, h.2.2.1⟩

/-- C2: `process` returns an error in exactly two cases — the no-transition
error as soon as some character forks no live trace (and then the same error
results whatever characters follow it, so none are examined), and the
exhaustion error when the whole input is consumed but no surviving trace ends
in an accepting state; in every other case it returns a match. -/
theorem claim2_process_error_cases (T : Type) (nfa : NFA T) (s : List Char)
    (cmp : List Nat → List Nat → Ordering) :
    (∀ e, nfa.process s cmp = .error e →
        (e = noTransitionError s ∧
          ∃ p c r, s = p ++ c :: r ∧
            ∃ ts, nfa.consume [[0]] p = some ts ∧ nfa.process_char ts c = [])
      ∨ (e = exhaustedError ∧
          ∃ ts, nfa.consume [[0]] s = some ts ∧
            ts.filter (fun t => (nfa.get (t.getLastD 0)).acceptance) = []))
  ∧ (∀ p c r', (∃ ts, nfa.consume [[0]] p = some ts ∧ nfa.process_char ts c = []) →
      nfa.process (p ++ c :: r') cmp = .error (noTransitionError (p ++ c :: r')))
  ∧ (∀ ts, nfa.consume [[0]] s = some ts →
      ts.filter (fun t => (nfa.get (t.getLastD 0)).acceptance) = [] →
      nfa.process s cmp = .error exhaustedError)
  ∧ ((¬ ∃ p c r, s = p ++ c :: r ∧
        ∃ ts, nfa.consume [[0]] p = some ts ∧ nfa.process_char ts c = []) →
      (¬ ∃ ts, nfa.consume [[0]] s = some ts ∧
        ts.filter (fun t => (nfa.get (t.getLastD 0)).acceptance) = []) →
      ∃ m, nfa.process s cmp = .ok m) := by
  have herr : ∀ e, nfa.process s cmp = .error e →
      (e = noTransitionError s ∧
        ∃ p c r, s = p ++ c :: r ∧
          ∃ ts, nfa.consume [[0]] p = some ts ∧ nfa.process_char ts c = [])
    ∨ (e = exhaustedError ∧
        ∃ ts, nfa.consume [[0]] s = some ts ∧
          ts.filter (fun t => (nfa.get (t.getLastD 0)).acceptance) = []) := by
    intro e he
    rcases hcons : nfa.consume [[0]] s with _ | cur
    · rw [NFA.process_of_consume_none hcons] at he
      have he' : noTransitionError s = e := by
        injection he
      exact Or.inl ⟨he'.symm, (nfa.consume_none_iff [[0]] s).mp hcons⟩
    · rcases hf : cur.filter (fun trace => (nfa.get (trace.getLastD 0)).acceptance) with
        _ | ⟨t0, rest⟩
      · rw [NFA.process_of_filter_nil hcons hf] at he
        have he' : exhaustedError = e := by
          injection he
        exact Or.inr ⟨he'.symm, cur, rfl, hf⟩
      · rw [NFA.process_of_filter_ne hcons hf] at he
        exact absurd he (by simp)
  refine ⟨herr, ?_, ?_, ?_⟩
  · rintro p c r' ⟨ts, h1, h2⟩
    have hnone : nfa.consume [[0]] (p ++ c :: r') = none := by
      rw [nfa.consume_append [[0]] p (c :: r'), h1]
      show nfa.consume ts (c :: r') = none
      exact NFA.consume_cons_nil r' h2
    exact NFA.process_of_consume_none hnone
  · intro ts h1 h2
    exact NFA.process_of_filter_nil h1 h2
  · intro hA hB
    rcases hp : nfa.process s cmp with e | m
    · rcases herr e hp with ⟨-, hd⟩ | ⟨-, hd⟩
      · exact absurd hd hA
      · exact absurd hd hB
    · exact ⟨m, rfl⟩

/-- C2 witness: on the root-only automaton, `"a"` fails immediately with the
no-transition error, and `""` fails with the exhaustion error. -/
theorem claim2_witness :
    (NFA.new : NFA Unit).process (String.data "a") (fun _ _ => Ordering.eq) =
      .error (noTransitionError (String.data "a"))
  ∧ (NFA.new : NFA Unit).process [] (fun _ _ => Ordering.eq) = .error exhaustedError :=
  ⟨(claim2_process_error_cases Unit NFA.new (String.data "a")
      (fun _ _ => Ordering.eq)).2.1 [] 'a' [] ⟨[[0]], rfl, rfl⟩,
   (claim2_process_error_cases Unit NFA.new [] (fun _ _ => Ordering.eq)).2.2.1
      [[0]] rfl rfl⟩

/-- C1: with `"/posts/new"` and `"/posts/:id"` registered in either order,
`recognize "/posts/new"` returns the static handler with an empty parameter
map, and `recognize "/posts/1"` returns the dynamic handler with exactly
`id = "1"`. -/
theorem claim1_specificity_precedence :
    (routerStaticFirst.recognize "/posts/new".data =
        some (.ok ⟨some "new", Params.new⟩)
      ∧ routerStaticFirst.recognize "/posts/1".data =
        some (.ok ⟨some "id", ⟨[("id", "1")]⟩⟩))
  ∧ (routerDynamicFirst.recognize "/posts/new".data =
        some (.ok ⟨some "new", Params.new⟩)
      ∧ routerDynamicFirst.recognize "/posts/1".data =
        some (.ok ⟨some "id", ⟨[("id", "1")]⟩⟩)) :=
  ⟨⟨rfl, rfl⟩, ⟨rfl, rfl⟩⟩

/-- C3: with `"/posts/:id"` registered, recognizing `"/posts/12345"` yields
the single five-character capture `"12345"` bound to `id`; on the winning
trace (which re-enters the self-looping dynamic state 7 four times) capture
extraction closes the capture only once, at exit, not at each self-loop
re-entry. -/
theorem claim3_selfloop_capture :
    routerId.recognize "/posts/12345".data =
      some (.ok ⟨some "id", ⟨[("id", "12345")]⟩⟩)
  ∧ routerId.nfa.process "posts/12345".data routerId.cmp = .ok ⟨7, ["12345".data]⟩
  ∧ routerId.nfa.extract_captures "posts/12345".data [0, 1, 2, 3, 4, 5, 6, 7, 7, 7, 7, 7] =
      ["12345".data]
  ∧ (routerId.nfa.get 7).end_capture = true
  ∧ 7 ∈ (routerId.nfa.get 7).next_states :=
  ⟨rfl, rfl, rfl, rfl, by decide⟩

/-- C6: with `"/"` registered with handler `10`, recognizing `"/"` succeeds
with that handler and an empty parameter map; registration of `"/"` marked
the root state accepting. -/
theorem claim6_root_pattern :
    routerRoot.recognize "/".data = some (.ok ⟨some 10, Params.new⟩)
  ∧ (routerRoot.nfa.get 0).acceptance = true :=
  ⟨rfl, rfl⟩

/-- C7: with `"/posts/:post_id/comments/:id"` registered, recognizing
`"/posts/12/comments/100"` succeeds; the winning state's recorded parameter
names are `post_id, id` in pattern order, the captures are `"12", "100"` in
the same order, so the positional pairing yields `post_id = "12"` then
`id = "100"`, and both lookups succeed in the returned parameter map. -/
theorem claim7_multi_parameter :
    routerComments.recognize "/posts/12/comments/100".data =
      some (.ok ⟨some "comment", ⟨[("id", "100"), ("post_id", "12")]⟩⟩)
  ∧ (∃ nm : NfaMatch,
      routerComments.nfa.process "posts/12/comments/100".data routerComments.cmp = .ok nm
      ∧ ((routerComments.nfa.get nm.state).metadata.getD Metadata.new).param_names =
          ["post_id", "id"]
      ∧ nm.captures.map String.mk = ["12", "100"]
      ∧ List.zip ((routerComments.nfa.get nm.state).metadata.getD Metadata.new).param_names
          (nm.captures.map String.mk) = [("post_id", "12"), ("id", "100")])
  ∧ (routerComments.recognize "/posts/12/comments/100".data).map
      (fun e => e.map (fun m => (m.params.find "post_id", m.params.find "id"))) =
      some (.ok (some "12", some "100")) :=
  ⟨rfl, ⟨⟨18, ["12".data, "100".data]⟩, rfl, rfl, rfl, rfl⟩, rfl⟩

/-! Helper lemmas for the recognition-safety invariant. -/

theorem head?_append_left (t l : List α) (h : t ≠ []) : (t ++ l).head? = t.head? := by
  cases t with
  | nil => exact absurd rfl h
  | cons a as => rfl

theorem getLastD_mem (l : List α) (d : α) (h : l ≠ []) : l.getLastD d ∈ l := by
  rw [List.getLastD_eq_getLast?, List.getLast?_eq_getLast l h]
  exact List.getLast_mem h

theorem length_insertSorted (cmp : α → α → Ordering) (x : α) (l : List α) :
    (insertSorted cmp x l).length = l.length + 1 := by
  induction l with
  | nil => rfl
  | cons y ys ih =>
    simp only [insertSorted]
    split
    · simp
    · simp [ih]

theorem mem_insertSorted (cmp : α → α → Ordering) (x y : α) (l : List α) :
    y ∈ insertSorted cmp x l ↔ y = x ∨ y ∈ l := by
  induction l with
  | nil => simp [insertSorted]
  | cons z zs ih =>
    simp only [insertSorted]
    split
    · simp [List.mem_cons]
    · simp only [List.mem_cons, ih]
      tauto

theorem mem_sort_by (cmp : α → α → Ordering) (l : List α) (y : α) :
    y ∈ sort_by cmp l ↔ y ∈ l := by
  have aux : ∀ (l acc : List α),
      y ∈ l.foldl (fun acc x => insertSorted cmp x acc) acc ↔ y ∈ acc ∨ y ∈ l := by
    intro l
    induction l with
    | nil => simp
    | cons a as ih =>
      intro acc
      show y ∈ as.foldl (fun acc x => insertSorted cmp x acc) (insertSorted cmp a acc) ↔ _
      rw [ih]
      simp only [mem_insertSorted, List.mem_cons]
      tauto
  unfold sort_by
  rw [aux]
  simp

theorem length_sort_by (cmp : α → α → Ordering) (l : List α) :
    (sort_by cmp l).length = l.length := by
  have aux : ∀ (l acc : List α),
      (l.foldl (fun acc x => insertSorted cmp x acc) acc).length =
        acc.length + l.length := by
    intro l
    induction l with
    | nil => simp
    | cons a as ih =>
      intro acc
      show (as.foldl (fun acc x => insertSorted cmp x acc)
        (insertSorted cmp a acc)).length = _
      rw [ih, length_insertSorted]
      simp only [List.length_cons]
      omega
  unfold sort_by
  rw [aux]
  simp

theorem treeFind_insert_self (l : List (Nat × β)) (k : Nat) (v : β) :
    treeFind (treeInsert l k v) k = some v := by
  induction l with
  | nil => simp [treeInsert, treeFind]
  | cons p rest ih =>
    obtain ⟨k', v'⟩ := p
    simp only [treeInsert]
    rcases hc : compare k k' with _ | _ | _
    · simp [treeFind]
    · simp [treeFind]
    · have hne : k ≠ k' := by
        have := Nat.compare_eq_gt.mp hc
        omega
      simp [treeFind, hne, ih]

theorem treeFind_insert_ne (l : List (Nat × β)) (k k2 : Nat) (v : β) (h : k2 ≠ k) :
    treeFind (treeInsert l k v) k2 = treeFind l k2 := by
  induction l with
  | nil => simp [treeInsert, treeFind, h]
  | cons p rest ih =>
    obtain ⟨k', v'⟩ := p
    simp only [treeInsert]
    rcases hc : compare k k' with _ | _ | _
    · simp only [treeFind, if_neg h]
    · have hkk : k = k' := Nat.compare_eq_eq.mp hc
      subst hkk
      simp only [treeFind, if_neg h]
    · simp only [treeFind]
      by_cases h2 : k2 = k'
      · rw [if_pos h2, if_pos h2]
      · rw [if_neg h2, if_neg h2]
        exact ih

/-- The length of the capture list `ec_go` builds is governed by `capCount`. -/
theorem ec_go_length (nfa : NFA T) (source : List Char) (trace : List Nat) :
    ∀ (pos : Nat) (ss : Option Nat) (captures : List (List Char)),
    (nfa.ec_go source pos trace ss captures).length =
      captures.length + capCount nfa trace ss.isSome := by
  induction trace with
  | nil => intro pos ss captures; simp [NFA.ec_go, capCount]
  | cons x rest ih =>
    intro pos ss captures
    have hss2 : (if ss.isNone && (nfa.get x).start_capture then some (pos - 1)
        else ss).isSome = (ss.isSome || (nfa.get x).start_capture) := by
      cases ss with
      | none =>
        cases hxc : (nfa.get x).start_capture <;> simp [hxc]
      | some a =>
        simp
    cases rest with
    | nil =>
      show (if (if ss.isNone && (nfa.get x).start_capture then some (pos - 1)
          else ss).isSome && (nfa.get x).end_capture then
            captures ++ [source.drop ((if ss.isNone && (nfa.get x).start_capture
              then some (pos - 1) else ss).getD 0)]
          else captures).length = _
      rw [hss2]
      show _ = captures.length +
        (if (ss.isSome || (nfa.get x).start_capture) && (nfa.get x).end_capture
          then 1 else 0)
      split
      · simp
      · simp
    | cons next rest2 =>
      show (if (x != next) && (nfa.get x).end_capture then
          nfa.ec_go source (pos + 1) (next :: rest2) none
            (captures ++ [(source.take pos).drop
              ((if ss.isNone && (nfa.get x).start_capture then some (pos - 1)
                else ss).getD 0)])
        else nfa.ec_go source (pos + 1) (next :: rest2)
          (if ss.isNone && (nfa.get x).start_capture then some (pos - 1) else ss)
          captures).length = _
      show _ = captures.length +
        (if (x != next) && (nfa.get x).end_capture then
          capCount nfa (next :: rest2) false + 1
        else capCount nfa (next :: rest2) (ss.isSome || (nfa.get x).start_capture))
      split
      · rw [ih]
        simp only [List.length_append, List.length_singleton, Option.isSome_none]
        omega
      · rw [ih, hss2]

theorem extract_captures_length (nfa : NFA T) (source : List Char) (trace : List Nat) :
    (nfa.extract_captures source trace).length = capCount nfa trace false := by
  unfold NFA.extract_captures
  rw [ec_go_length]
  simp

theorem NFA.process_char_valid (nfa : NFA T) (h : nfa.WF) (ts : List (List Nat))
    (c : Char) (hts : ∀ t ∈ ts, ValidTrace nfa t) :
    ∀ t' ∈ nfa.process_char ts c, ValidTrace nfa t' := by
  intro t' ht'
  simp only [NFA.process_char, List.mem_flatMap, List.mem_filterMap] at ht'
  obtain ⟨t, ht, j, hj, hj2⟩ := ht'
  by_cases hm : (nfa.get j).chars.matches c
  · rw [if_pos hm] at hj2
    have he : fork_trace t (nfa.get j) = t' := by injection hj2
    subst he
    obtain ⟨hhead, hchain⟩ := hts t ht
    have htne : t ≠ [] := by
      intro h0
      rw [h0] at hhead
      exact absurd hhead (by simp)
    have hidx : (nfa.get j).index = j := h.2.1 j (h.2.2 _ j hj)
    constructor
    · show (t ++ [(nfa.get j).index]).head? = some 0
      rw [head?_append_left _ _ htne]
      exact hhead
    · show List.Chain' (Step nfa) (t ++ [(nfa.get j).index])
      rw [List.chain'_append]
      refine ⟨hchain, List.chain'_singleton _, ?_⟩
      intro x hx y hy
      simp only [List.head?_cons, Option.mem_def, Option.some.injEq] at hy
      subst hy
      rw [hidx]
      have hxlast : x = t.getLastD 0 := by
        have hx2 : t.getLast? = some x := hx
        rw [List.getLastD_eq_getLast?, hx2]
        rfl
      rw [hxlast]
      exact hj
  · rw [if_neg hm] at hj2
    exact absurd hj2 (by simp)

theorem NFA.consume_valid (nfa : NFA T) (h : nfa.WF) (s : List Char) :
    ∀ (ts cur : List (List Nat)), (∀ t ∈ ts, ValidTrace nfa t) →
    nfa.consume ts s = some cur → ∀ t ∈ cur, ValidTrace nfa t := by
  induction s with
  | nil =>
    intro ts cur hts hc
    obtain rfl : ts = cur := by simpa [NFA.consume] using hc
    exact hts
  | cons c cs ih =>
    intro ts cur hts hc
    by_cases hpc : nfa.process_char ts c = []
    · rw [NFA.consume_cons_nil cs hpc] at hc
      exact absurd hc (by simp)
    · rw [NFA.consume_cons_ne cs hpc] at hc
      exact ih _ _ (nfa.process_char_valid h ts c hts) hc

/-- Inversion of a successful `process`: the match is built from an accepting
surviving trace (the last of the comparator-sorted filter). -/
theorem NFA.process_ok_inv (nfa : NFA T) (s : List Char)
    (cmp : List Nat → List Nat → Ordering) (nm : NfaMatch)
    (h : nfa.process s cmp = .ok nm) :
    ∃ cur trace, nfa.consume [[0]] s = some cur ∧
      trace ∈ cur.filter (fun t => (nfa.get (t.getLastD 0)).acceptance) ∧
      nm.state = (nfa.get (trace.getLastD 0)).index ∧
      nm.captures = nfa.extract_captures s trace := by
  rcases hcons : nfa.consume [[0]] s with _ | cur
  · rw [NFA.process_of_consume_none hcons] at h
    exact absurd h (by simp)
  · rcases hf : cur.filter (fun t => (nfa.get (t.getLastD 0)).acceptance) with _ | ⟨t0, rest⟩
    · rw [NFA.process_of_filter_nil hcons hf] at h
      exact absurd h (by simp)
    · rw [NFA.process_of_filter_ne hcons hf] at h
      have hnm : nm = ⟨(nfa.get (((sort_by cmp (t0 :: rest)).getLastD []).getLastD 0)).index,
          nfa.extract_captures s ((sort_by cmp (t0 :: rest)).getLastD [])⟩ := by
        injection h with h2
        exact h2.symm
      refine ⟨cur, (sort_by cmp (t0 :: rest)).getLastD [], rfl, ?_, ?_, ?_⟩
      · rw [hf]
        have hne : sort_by cmp (t0 :: rest) ≠ [] := by
          intro h0
          have := length_sort_by cmp (t0 :: rest)
          rw [h0] at this
          simp at this
        have := getLastD_mem (sort_by cmp (t0 :: rest)) [] hne
        rw [mem_sort_by] at this
        exact this
      · rw [hnm]
      · rw [hnm]

/-- Along any transition path, the number of captures closed equals the
difference in capture depth `cd`, plus one for the path's first state if it is
itself a capture state. -/
theorem capCount_cd (nfa : NFA Metadata) (cd : Nat → Nat) (inv : NfaInv nfa cd) :
    ∀ (t : List Nat) (x : Nat) (o : Bool), List.Chain' (Step nfa) (x :: t) →
    capCount nfa (x :: t) o + cd x =
      cd ((x :: t).getLastD 0) + (if (nfa.get x).start_capture then 1 else 0) := by
  intro t
  induction t with
  | nil =>
    intro x o hch
    show (if (o || (nfa.get x).start_capture) && (nfa.get x).end_capture then 1 else 0)
      + cd x = cd x + (if (nfa.get x).start_capture then 1 else 0)
    rw [← inv.flags_eq x]
    cases hx : (nfa.get x).start_capture
    · simp
    · simp [Nat.add_comm]
  | cons y t' ih =>
    intro x o hch
    obtain ⟨hstep, htail⟩ := List.chain'_cons.mp hch
    have hlast : ((x :: y :: t').getLastD 0) = ((y :: t').getLastD 0) := rfl
    rw [hlast]
    show (if (x != y) && (nfa.get x).end_capture then capCount nfa (y :: t') false + 1
      else capCount nfa (y :: t') (o || (nfa.get x).start_capture)) + cd x = _
    by_cases hxy : x = y
    · subst hxy
      have hcap : (nfa.get x).start_capture = true := inv.selfloop_cap x hstep
      rw [show (x != x) = false by simp, Bool.false_and, if_neg Bool.false_ne_true]
      exact ih x (o || (nfa.get x).start_capture) htail
    · have hne : (x != y) = true := by simp [hxy]
      have hedge : cd y = cd x + (if (nfa.get y).start_capture then 1 else 0) :=
        inv.cd_edge x y hstep (fun h => hxy h.symm)
      cases hcx : (nfa.get x).start_capture
      · have hce : (nfa.get x).end_capture = false := by rw [← inv.flags_eq x, hcx]
        rw [hne, hce, Bool.and_false, if_neg Bool.false_ne_true,
          show (if (false : Bool) = true then (1 : Nat) else 0) = 0 from rfl]
        have hih := ih y (o || false) htail
        cases hcy : (nfa.get y).start_capture
        · have hedge2 : cd y = cd x := by simpa [hcy] using hedge
          have hih2 : capCount nfa (y :: t') (o || false) + cd y =
              cd ((y :: t').getLastD 0) := by simpa [hcy] using hih
          omega
        · have hedge2 : cd y = cd x + 1 := by simpa [hcy] using hedge
          have hih2 : capCount nfa (y :: t') (o || false) + cd y =
              cd ((y :: t').getLastD 0) + 1 := by simpa [hcy] using hih
          omega
      · have hce : (nfa.get x).end_capture = true := by rw [← inv.flags_eq x, hcx]
        rw [hne, hce, Bool.and_true, if_pos rfl,
          show (if (true : Bool) = true then (1 : Nat) else 0) = 1 from rfl]
        have hih := ih y false htail
        cases hcy : (nfa.get y).start_capture
        · have hedge2 : cd y = cd x := by simpa [hcy] using hedge
          have hih2 : capCount nfa (y :: t') false + cd y =
              cd ((y :: t').getLastD 0) := by simpa [hcy] using hih
          omega
        · have hedge2 : cd y = cd x + 1 := by simpa [hcy] using hedge
          have hih2 : capCount nfa (y :: t') false + cd y =
              cd ((y :: t').getLastD 0) + 1 := by simpa [hcy] using hih
          omega

/-- The winning trace of a run over a router-invariant automaton yields
exactly `cd` of its final state many captures. -/
theorem valid_trace_captures (nfa : NFA Metadata) (cd : Nat → Nat) (inv : NfaInv nfa cd)
    (source : List Char) (t : List Nat) (hv : ValidTrace nfa t) :
    (nfa.extract_captures source t).length = cd (t.getLastD 0) := by
  obtain ⟨hhead, hchain⟩ := hv
  cases t with
  | nil => exact absurd hhead (by simp)
  | cons x rest =>
    obtain rfl : x = 0 := by simpa using hhead
    have h0 : (nfa.get 0).start_capture = false := by
      cases hc : (nfa.get 0).start_capture
      · rfl
      · have := (inv.cap_guard 0).mp hc
        rw [inv.root_guard] at this
        have h2 : (∅ : Finset Char) = {'/'} := by
          simpa [CharacterClass.any, CharacterClass.invalid_char] using this
        exact absurd h2 (by decide)
    have := capCount_cd nfa cd inv rest 0 false hchain
    rw [h0, if_neg Bool.false_ne_true, inv.cd_root] at this
    rw [extract_captures_length]
    omega

theorem valid_ne_invalid (ch c2 : Char) :
    CharacterClass.valid_char ch ≠ CharacterClass.invalid_char c2 := by
  simp [CharacterClass.valid_char, CharacterClass.invalid_char]

theorem cap_of_guard_valid {nfa : NFA Metadata} {cd : Nat → Nat} (inv : NfaInv nfa cd)
    {j : Nat} {ch : Char} (h : (nfa.get j).chars = CharacterClass.valid_char ch) :
    (nfa.get j).start_capture = false := by
  cases hc : (nfa.get j).start_capture
  · rfl
  · have h2 := (inv.cap_guard j).mp hc
    rw [h] at h2
    exact absurd h2 (valid_ne_invalid ch '/')

/-- `put` of a literal-character guard preserves the router invariant; the
returned state is in bounds, is not a capture state, and sits at the same
capture depth as its source. -/
theorem NfaInv_put_valid (nfa : NFA Metadata) (cd : Nat → Nat) (inv : NfaInv nfa cd)
    (s : Nat) (hs : s < nfa.states.length) (ch : Char) :
    ∃ cd2 : Nat → Nat,
      NfaInv (nfa.put s (CharacterClass.valid_char ch)).1 cd2 ∧
      (∀ k, k < nfa.states.length → cd2 k = cd k) ∧
      nfa.states.length ≤ (nfa.put s (CharacterClass.valid_char ch)).1.states.length ∧
      (nfa.put s (CharacterClass.valid_char ch)).2 <
        (nfa.put s (CharacterClass.valid_char ch)).1.states.length ∧
      cd2 (nfa.put s (CharacterClass.valid_char ch)).2 = cd s ∧
      ((nfa.put s (CharacterClass.valid_char ch)).1.get
          (nfa.put s (CharacterClass.valid_char ch)).2).start_capture = false ∧
      (∀ k, ((nfa.put s (CharacterClass.valid_char ch)).1.get k).acceptance =
            (nfa.get k).acceptance ∧
          ((nfa.put s (CharacterClass.valid_char ch)).1.get k).metadata =
            (nfa.get k).metadata) := by
  have hwf := inv.wf
  rcases nfa.put_cases s (CharacterClass.valid_char ch) hs with
    ⟨e1, e2, e3⟩ | ⟨e1, e2, e3, e4, e5⟩
  · have hne : (nfa.put s (CharacterClass.valid_char ch)).2 ≠ s := by
      intro h0
      rw [h0] at e2 e3
      have hcap := inv.selfloop_cap s e2
      have h2 := (inv.cap_guard s).mp hcap
      rw [e3] at h2
      exact absurd h2 (valid_ne_invalid ch '/')
    refine ⟨cd, ?_, fun k _ => rfl, ?_, ?_, ?_, ?_, ?_⟩
    · rw [e1]; exact inv
    · rw [e1]
    · rw [e1]; exact hwf.2.2 _ _ e2
    · have hcap : (nfa.get (nfa.put s (CharacterClass.valid_char ch)).2).start_capture =
          false := cap_of_guard_valid inv e3
      have h2 := inv.cd_edge s _ e2 hne
      rw [hcap] at h2
      simpa using h2
    · rw [e1]; exact cap_of_guard_valid inv e3
    · intro k; rw [e1]; exact ⟨rfl, rfl⟩
  · have hlenpos : 0 < nfa.states.length := hwf.1
    have hsn : s ≠ nfa.states.length := by omega
    have hother : ∀ k, k ≠ nfa.states.length →
        ((nfa.put s (CharacterClass.valid_char ch)).1.get k).start_capture =
          (nfa.get k).start_capture ∧
        ((nfa.put s (CharacterClass.valid_char ch)).1.get k).end_capture =
          (nfa.get k).end_capture ∧
        ((nfa.put s (CharacterClass.valid_char ch)).1.get k).chars =
          (nfa.get k).chars ∧
        ((nfa.put s (CharacterClass.valid_char ch)).1.get k).acceptance =
          (nfa.get k).acceptance ∧
        ((nfa.put s (CharacterClass.valid_char ch)).1.get k).metadata =
          (nfa.get k).metadata := by
      intro k hk
      by_cases hks : k = s
      · subst hks
        rw [e4]
        exact ⟨rfl, rfl, rfl, rfl, rfl⟩
      · rw [e5 k hks hk]
        exact ⟨rfl, rfl, rfl, rfl, rfl⟩
    refine ⟨fun k => if k = nfa.states.length then cd s else cd k,
      ⟨(NFA.WF_put nfa s (CharacterClass.valid_char ch) hwf hs).1, ?_, ?_, ?_, ?_, ?_,
        ?_, ?_, ?_⟩, ?_, ?_, ?_, ?_, ?_, ?_⟩
    · rw [(hother 0 (by omega)).2.2.1]
      exact inv.root_guard
    · intro k j hj
      by_cases hkn : k = nfa.states.length
      · subst hkn
        rw [e3] at hj
        simp [State.new] at hj
      · by_cases hks : k = s
        · subst hks
          rw [e4] at hj
          rcases List.mem_append.mp hj with hj2 | hj2
          · exact inv.trans_pos k j hj2
          · have : j = nfa.states.length := by simpa using hj2
            omega
        · rw [e5 k hks hkn] at hj
          exact inv.trans_pos k j hj
    · intro k
      by_cases hkn : k = nfa.states.length
      · subst hkn
        rw [e3]
        rfl
      · rw [(hother k hkn).1, (hother k hkn).2.1]
        exact inv.flags_eq k
    · intro k
      by_cases hkn : k = nfa.states.length
      · subst hkn
        rw [e3]
        simp [State.new, CharacterClass.valid_char, CharacterClass.invalid_char]
      · rw [(hother k hkn).1, (hother k hkn).2.2.1]
        exact inv.cap_guard k
    · intro k hk
      by_cases hkn : k = nfa.states.length
      · subst hkn
        rw [e3] at hk
        simp [State.new] at hk
      · by_cases hks : k = s
        · subst hks
          rw [e4] at hk
          rcases List.mem_append.mp hk with hk2 | hk2
          · rw [(hother k hkn).1]
            exact inv.selfloop_cap k hk2
          · have : k = nfa.states.length := by simpa using hk2
            omega
        · rw [e5 k hks hkn] at hk
          rw [(hother k hkn).1]
          exact inv.selfloop_cap k hk
    · rw [if_neg (by omega : (0 : Nat) ≠ nfa.states.length)]
      exact inv.cd_root
    · intro k j hj hjk
      by_cases hkn : k = nfa.states.length
      · subst hkn
        rw [e3] at hj
        simp [State.new] at hj
      · by_cases hks : k = s
        · subst hks
          rw [e4] at hj
          rcases List.mem_append.mp hj with hj2 | hj2
          · have hjlt : j < nfa.states.length := hwf.2.2 k j hj2
            rw [if_neg (by omega : j ≠ nfa.states.length), if_neg hkn,
              (hother j (by omega)).1]
            exact inv.cd_edge k j hj2 hjk
          · have hjn : j = nfa.states.length := by simpa using hj2
            subst hjn
            rw [if_pos rfl, if_neg hkn, e3]
            simp [State.new]
        · rw [e5 k hks hkn] at hj
          have hjlt : j < nfa.states.length := hwf.2.2 k j hj
          rw [if_neg (by omega : j ≠ nfa.states.length), if_neg hkn,
            (hother j (by omega)).1]
          exact inv.cd_edge k j hj hjk
    · intro k hk
      by_cases hkn : k = nfa.states.length
      · subst hkn
        rw [e3] at hk
        simp [State.new] at hk
      · have hacc : (nfa.get k).acceptance = true := by
          rw [← (hother k hkn).2.2.2.1]
          exact hk
        obtain ⟨md, hmd1, hmd2⟩ := inv.accept_md k hacc
        refine ⟨md, ?_, ?_⟩
        · rw [(hother k hkn).2.2.2.2]
          exact hmd1
        · rw [if_neg hkn]
          exact hmd2
    · intro k hklt
      show (if k = nfa.states.length then cd s else cd k) = cd k
      rw [if_neg (by omega : k ≠ nfa.states.length)]
    · omega
    · omega
    · rw [e1]
      show (if nfa.states.length = nfa.states.length then cd s
        else cd nfa.states.length) = cd s
      rw [if_pos rfl]
    · rw [e1, e3]
      rfl
    · intro k
      by_cases hkn : k = nfa.states.length
      · subst hkn
        rw [e3, nfa.get_oob nfa.states.length (le_refl _)]
        exact ⟨rfl, rfl⟩
      · exact ⟨(hother k hkn).2.2.2.1, (hother k hkn).2.2.2.2⟩

theorem NFA.get_put_state_self (nfa : NFA T) (i child : Nat)
    (h : i < nfa.states.length) :
    (nfa.put_state i child).get i =
      { nfa.get i with next_states := (nfa.get i).next_states ++ [child] } :=
  NFA.get_modify_self nfa i _ h

theorem NFA.get_put_state_ne (nfa : NFA T) (i child k : Nat) (h : k ≠ i) :
    (nfa.put_state i child).get k = nfa.get k :=
  NFA.get_modify_ne nfa i k _ h

theorem NFA.get_start_capture_self (nfa : NFA T) (i : Nat)
    (h : i < nfa.states.length) :
    (nfa.start_capture i).get i = { nfa.get i with start_capture := true } :=
  NFA.get_modify_self nfa i _ h

theorem NFA.get_start_capture_ne (nfa : NFA T) (i k : Nat) (h : k ≠ i) :
    (nfa.start_capture i).get k = nfa.get k :=
  NFA.get_modify_ne nfa i k _ h

theorem NFA.get_end_capture_self (nfa : NFA T) (i : Nat)
    (h : i < nfa.states.length) :
    (nfa.end_capture i).get i = { nfa.get i with end_capture := true } :=
  NFA.get_modify_self nfa i _ h

theorem NFA.get_end_capture_ne (nfa : NFA T) (i k : Nat) (h : k ≠ i) :
    (nfa.end_capture i).get k = nfa.get k :=
  NFA.get_modify_ne nfa i k _ h

theorem NFA.get_acceptance_self (nfa : NFA T) (i : Nat)
    (h : i < nfa.states.length) :
    (nfa.acceptance i).get i = { nfa.get i with acceptance := true } :=
  NFA.get_modify_self nfa i _ h

theorem NFA.get_acceptance_ne (nfa : NFA T) (i k : Nat) (h : k ≠ i) :
    (nfa.acceptance i).get k = nfa.get k :=
  NFA.get_modify_ne nfa i k _ h

theorem NFA.get_metadata_self (nfa : NFA T) (i : Nat) (md : T)
    (h : i < nfa.states.length) :
    (nfa.metadata i md).get i = { nfa.get i with metadata := some md } :=
  NFA.get_modify_self nfa i _ h

theorem NFA.get_metadata_ne (nfa : NFA T) (i k : Nat) (md : T) (h : k ≠ i) :
    (nfa.metadata i md).get k = nfa.get k :=
  NFA.get_modify_ne nfa i k _ h

/-- Combined effect of the self-loop plus the two capture flags on a state. -/
theorem dyn_ops_get (m : NFA Metadata) (D : Nat) (hD : D < m.states.length) :
    (((m.put_state D D).start_capture D).end_capture D).get D =
      { m.get D with next_states := (m.get D).next_states ++ [D],
                     start_capture := true, end_capture := true } ∧
    (∀ k, k ≠ D → (((m.put_state D D).start_capture D).end_capture D).get k = m.get k) ∧
    (((m.put_state D D).start_capture D).end_capture D).states.length =
      m.states.length := by
  have h1 : (m.put_state D D).states.length = m.states.length :=
    NFA.length_put_state _ _ _
  have h2 : ((m.put_state D D).start_capture D).states.length = m.states.length := by
    rw [NFA.length_start_capture, h1]
  refine ⟨?_, ?_, ?_⟩
  · rw [NFA.get_end_capture_self _ _ (by rw [h2]; exact hD),
      NFA.get_start_capture_self _ _ (by rw [h1]; exact hD),
      NFA.get_put_state_self _ _ _ hD]
  · intro k hk
    rw [NFA.get_end_capture_ne _ _ _ hk, NFA.get_start_capture_ne _ _ _ hk,
      NFA.get_put_state_ne _ _ _ _ hk]
  · rw [NFA.length_end_capture, h2]

/-- Dynamic-segment wiring when `put` deduplicated onto an existing dynamic
state `D`: re-adding the self-loop and re-setting the flags preserves the
invariant with the same depth function. -/
theorem NfaInv_dyn_dedup (nfa : NFA Metadata) (cd : Nat → Nat) (inv : NfaInv nfa cd)
    (s D : Nat) (hmem : D ∈ (nfa.get s).next_states)
    (hchars : (nfa.get D).chars = CharacterClass.invalid_char '/')
    (hDs : D ≠ s) :
    NfaInv (((nfa.put_state D D).start_capture D).end_capture D) cd ∧
    (((nfa.put_state D D).start_capture D).end_capture D).states.length =
      nfa.states.length ∧
    cd D = cd s + 1 ∧
    (∀ k, ((((nfa.put_state D D).start_capture D).end_capture D).get k).acceptance =
        (nfa.get k).acceptance ∧
      ((((nfa.put_state D D).start_capture D).end_capture D).get k).metadata =
        (nfa.get k).metadata) := by
  have hwf := inv.wf
  have hDlt : D < nfa.states.length := hwf.2.2 s D hmem
  have hDpos : 0 < D := inv.trans_pos s D hmem
  have hcapD : (nfa.get D).start_capture = true := (inv.cap_guard D).mpr hchars
  obtain ⟨gD, gNe, gLen⟩ := dyn_ops_get nfa D hDlt
  have hedgeD : cd D = cd s + 1 := by
    have h2 := inv.cd_edge s D hmem hDs
    rw [hcapD] at h2
    simpa using h2
  have hwf3 : (((nfa.put_state D D).start_capture D).end_capture D).WF :=
    NFA.WF_end_capture _ _ (NFA.WF_start_capture _ _
      (NFA.WF_put_state nfa D D hDlt hwf).1)
  refine ⟨⟨hwf3, ?_, ?_, ?_, ?_, ?_, inv.cd_root, ?_, ?_⟩, gLen, hedgeD, ?_⟩
  · rw [gNe 0 (by omega)]
    exact inv.root_guard
  · intro k j hj
    by_cases hkD : k = D
    · subst hkD
      rw [gD] at hj
      rcases List.mem_append.mp hj with hj2 | hj2
      · exact inv.trans_pos k j hj2
      · have : j = k := by simpa using hj2
        omega
    · rw [gNe k hkD] at hj
      exact inv.trans_pos k j hj
  · intro k
    by_cases hkD : k = D
    · subst hkD
      rw [gD]
    · rw [gNe k hkD]
      exact inv.flags_eq k
  · intro k
    by_cases hkD : k = D
    · subst hkD
      rw [gD]
      constructor
      · intro _
        exact hchars
      · intro _
        rfl
    · rw [gNe k hkD]
      exact inv.cap_guard k
  · intro k hk
    by_cases hkD : k = D
    · subst hkD
      rw [gD]
    · rw [gNe k hkD] at hk ⊢
      exact inv.selfloop_cap k hk
  · intro k j hj hjk
    by_cases hkD : k = D
    · subst hkD
      rw [gD] at hj
      rcases List.mem_append.mp hj with hj2 | hj2
      · rw [gNe j hjk]
        exact inv.cd_edge k j hj2 hjk
      · have : j = k := by simpa using hj2
        exact absurd this hjk
    · rw [gNe k hkD] at hj
      by_cases hjD : j = D
      · subst hjD
        rw [gD]
        show cd j = cd k + (if true = true then 1 else 0)
        have h2 := inv.cd_edge k j hj hjk
        rw [hcapD] at h2
        simpa using h2
      · rw [gNe j hjD]
        exact inv.cd_edge k j hj hjk
  · intro k hk
    by_cases hkD : k = D
    · subst hkD
      rw [gD] at hk ⊢
      exact inv.accept_md k hk
    · rw [gNe k hkD] at hk ⊢
      exact inv.accept_md k hk
  · intro k
    by_cases hkD : k = D
    · subst hkD
      rw [gD]
      exact ⟨rfl, rfl⟩
    · rw [gNe k hkD]
      exact ⟨rfl, rfl⟩

/-- Dynamic-segment wiring when `put` allocated a fresh state: `nfa2` is the
arena right after the allocation, and the self-loop plus capture flags turn
the new last state into a proper dynamic state one capture deeper than `s`. -/
theorem NfaInv_dyn_alloc (nfa : NFA Metadata) (cd : Nat → Nat) (inv : NfaInv nfa cd)
    (s : Nat) (hs : s < nfa.states.length)
    (_hscap : (nfa.get s).start_capture = false) (nfa2 : NFA Metadata)
    (hb1 : nfa2.states.length = nfa.states.length + 1)
    (hb2 : nfa2.get nfa.states.length =
      State.new nfa.states.length (CharacterClass.invalid_char '/'))
    (hb3 : nfa2.get s = { nfa.get s with
      next_states := (nfa.get s).next_states ++ [nfa.states.length] })
    (hb4 : ∀ i, i ≠ s → i ≠ nfa.states.length → nfa2.get i = nfa.get i)
    (hb5 : nfa2.WF) :
    ∃ cd2 : Nat → Nat,
      NfaInv (((nfa2.put_state nfa.states.length nfa.states.length).start_capture
        nfa.states.length).end_capture nfa.states.length) cd2 ∧
      (∀ k, k < nfa.states.length → cd2 k = cd k) ∧
      (((nfa2.put_state nfa.states.length nfa.states.length).start_capture
        nfa.states.length).end_capture nfa.states.length).states.length =
        nfa.states.length + 1 ∧
      cd2 nfa.states.length = cd s + 1 ∧
      (∀ k, ((((nfa2.put_state nfa.states.length nfa.states.length).start_capture
          nfa.states.length).end_capture nfa.states.length).get k).acceptance =
          (nfa.get k).acceptance ∧
        ((((nfa2.put_state nfa.states.length nfa.states.length).start_capture
          nfa.states.length).end_capture nfa.states.length).get k).metadata =
          (nfa.get k).metadata) := by
  have hwf := inv.wf
  have hlenpos : 0 < nfa.states.length := hwf.1
  have hsn : s ≠ nfa.states.length := by omega
  obtain ⟨gD, gNe, gLen⟩ := dyn_ops_get nfa2 nfa.states.length (by omega)
  have gD2 : (((nfa2.put_state nfa.states.length nfa.states.length).start_capture
      nfa.states.length).end_capture nfa.states.length).get nfa.states.length =
      ⟨nfa.states.length, CharacterClass.invalid_char '/', [nfa.states.length],
        false, true, true, none⟩ := by
    rw [gD, hb2]
    rfl
  have gS : (((nfa2.put_state nfa.states.length nfa.states.length).start_capture
      nfa.states.length).end_capture nfa.states.length).get s =
      { nfa.get s with next_states :=
          (nfa.get s).next_states ++ [nfa.states.length] } := by
    rw [gNe s hsn, hb3]
  have gOther : ∀ k, k ≠ s → k ≠ nfa.states.length →
      (((nfa2.put_state nfa.states.length nfa.states.length).start_capture
        nfa.states.length).end_capture nfa.states.length).get k = nfa.get k := by
    intro k hks hkn
    rw [gNe k hkn, hb4 k hks hkn]
  have hwf3 : (((nfa2.put_state nfa.states.length nfa.states.length).start_capture
      nfa.states.length).end_capture nfa.states.length).WF :=
    NFA.WF_end_capture _ _ (NFA.WF_start_capture _ _
      (NFA.WF_put_state nfa2 nfa.states.length nfa.states.length
        (by rw [hb1]; omega) hb5).1)
  refine ⟨fun k => if k = nfa.states.length then cd s + 1 else cd k,
    ⟨hwf3, ?_, ?_, ?_, ?_, ?_, ?_, ?_, ?_⟩, ?_, ?_, ?_, ?_⟩
  · by_cases hs0 : s = 0
    · rw [← hs0, gS]
      show (nfa.get s).chars = CharacterClass.any
      rw [hs0]
      exact inv.root_guard
    · rw [gOther 0 (fun h => hs0 h.symm) (by omega)]
      exact inv.root_guard
  · intro k j hj
    by_cases hkn : k = nfa.states.length
    · rw [hkn, gD2] at hj
      have hj2 : j = nfa.states.length := by simpa using hj
      omega
    · by_cases hks : k = s
      · rw [hks, gS] at hj
        rcases List.mem_append.mp hj with hj2 | hj2
        · exact inv.trans_pos s j hj2
        · have hj3 : j = nfa.states.length := by simpa using hj2
          omega
      · rw [gOther k hks hkn] at hj
        exact inv.trans_pos k j hj
  · intro k
    by_cases hkn : k = nfa.states.length
    · rw [hkn, gD2]
    · by_cases hks : k = s
      · rw [hks, gS]
        exact inv.flags_eq s
      · rw [gOther k hks hkn]
        exact inv.flags_eq k
  · intro k
    by_cases hkn : k = nfa.states.length
    · rw [hkn, gD2]
      simp
    · by_cases hks : k = s
      · rw [hks, gS]
        exact inv.cap_guard s
      · rw [gOther k hks hkn]
        exact inv.cap_guard k
  · intro k hk
    by_cases hkn : k = nfa.states.length
    · rw [hkn, gD2]
    · by_cases hks : k = s
      · rw [hks, gS] at hk ⊢
        rcases List.mem_append.mp hk with hk2 | hk2
        · exact inv.selfloop_cap s hk2
        · have hk3 : s = nfa.states.length := by simpa using hk2
          omega
      · rw [gOther k hks hkn] at hk ⊢
        exact inv.selfloop_cap k hk
  · show (if 0 = nfa.states.length then cd s + 1 else cd 0) = 0
    rw [if_neg (by omega : (0 : Nat) ≠ nfa.states.length)]
    exact inv.cd_root
  · intro k j hj hjk
    by_cases hkn : k = nfa.states.length
    · rw [hkn, gD2] at hj
      have hj2 : j = nfa.states.length := by simpa using hj
      rw [hkn] at hjk
      exact absurd hj2 hjk
    · by_cases hks : k = s
      · rw [hks, gS] at hj
        rcases List.mem_append.mp hj with hj2 | hj2
        · have hjlt : j < nfa.states.length := hwf.2.2 s j hj2
          have hjn : j ≠ nfa.states.length := by omega
          show (if j = nfa.states.length then cd s + 1 else cd j) =
            (if k = nfa.states.length then cd s + 1 else cd k) + _
          rw [if_neg hjn, if_neg hkn, hks]
          by_cases hjs : j = s
          · rw [hks, ← hjs] at hjk
            exact absurd rfl hjk
          · rw [gOther j hjs hjn]
            exact inv.cd_edge s j hj2 (by rw [hks] at hjk; exact hjk)
        · have hjn : j = nfa.states.length := by simpa using hj2
          show (if j = nfa.states.length then cd s + 1 else cd j) =
            (if k = nfa.states.length then cd s + 1 else cd k) + _
          rw [if_pos hjn, if_neg hkn, hjn, gD2, hks]
          simp
      · rw [gOther k hks hkn] at hj
        have hjlt : j < nfa.states.length := hwf.2.2 k j hj
        have hjn : j ≠ nfa.states.length := by omega
        show (if j = nfa.states.length then cd s + 1 else cd j) =
          (if k = nfa.states.length then cd s + 1 else cd k) + _
        rw [if_neg hjn, if_neg hkn]
        by_cases hjs : j = s
        · rw [hjs] at hj hjk ⊢
          rw [gS]
          exact inv.cd_edge k s hj hjk
        · rw [gOther j hjs hjn]
          exact inv.cd_edge k j hj hjk
  · intro k hk
    by_cases hkn : k = nfa.states.length
    · rw [hkn, gD2] at hk
      exact absurd hk (by simp)
    · have hacc : (nfa.get k).acceptance = true := by
        by_cases hks : k = s
        · rw [hks, gS] at hk
          rw [hks]
          exact hk
        · rw [gOther k hks hkn] at hk
          exact hk
      obtain ⟨md, hmd1, hmd2⟩ := inv.accept_md k hacc
      refine ⟨md, ?_, ?_⟩
      · by_cases hks : k = s
        · rw [hks, gS]
          rw [hks] at hmd1
          exact hmd1
        · rw [gOther k hks hkn]
          exact hmd1
      · show md.param_names.length = (if k = nfa.states.length then cd s + 1 else cd k)
        rw [if_neg hkn]
        exact hmd2
  · intro k hklt
    show (if k = nfa.states.length then cd s + 1 else cd k) = cd k
    rw [if_neg (by omega : k ≠ nfa.states.length)]
  · rw [gLen, hb1]
  · show (if nfa.states.length = nfa.states.length then cd s + 1
      else cd nfa.states.length) = cd s + 1
    rw [if_pos rfl]
  · intro k
    by_cases hkn : k = nfa.states.length
    · rw [hkn, gD2, nfa.get_oob nfa.states.length (le_refl _)]
      exact ⟨rfl, rfl⟩
    · by_cases hks : k = s
      · rw [hks, gS]
        exact ⟨rfl, rfl⟩
      · rw [gOther k hks hkn]
        exact ⟨rfl, rfl⟩

/-- `process_dynamic_segment` from a non-capture source preserves the router
invariant; the resulting dynamic state is in bounds, one capture deeper than
its source, and no acceptance flag or metadata changes. -/
theorem NfaInv_dyn (nfa : NFA Metadata) (cd : Nat → Nat) (inv : NfaInv nfa cd)
    (s : Nat) (hs : s < nfa.states.length)
    (hscap : (nfa.get s).start_capture = false) :
    ∃ cd2 : Nat → Nat,
      NfaInv (process_dynamic_segment nfa s).1 cd2 ∧
      (∀ k, k < nfa.states.length → cd2 k = cd k) ∧
      nfa.states.length ≤ (process_dynamic_segment nfa s).1.states.length ∧
      (process_dynamic_segment nfa s).2 <
        (process_dynamic_segment nfa s).1.states.length ∧
      cd2 (process_dynamic_segment nfa s).2 = cd s + 1 ∧
      (∀ k, ((process_dynamic_segment nfa s).1.get k).acceptance =
          (nfa.get k).acceptance ∧
        ((process_dynamic_segment nfa s).1.get k).metadata = (nfa.get k).metadata) := by
  have hwf := inv.wf
  rcases nfa.put_cases s (CharacterClass.invalid_char '/') hs with
    ⟨e1, e2, e3⟩ | ⟨e1, e2, e3, e4, e5⟩
  · have hDs : (nfa.put s (CharacterClass.invalid_char '/')).2 ≠ s := by
      intro h0
      have hcapD := (inv.cap_guard _).mpr e3
      rw [h0] at hcapD
      rw [hcapD] at hscap
      exact absurd hscap (by simp)
    obtain ⟨h1, h2, h3, h4⟩ := NfaInv_dyn_dedup nfa cd inv s
      (nfa.put s (CharacterClass.invalid_char '/')).2 e2 e3 hDs
    have hconv : (process_dynamic_segment nfa s).1 =
        ((nfa.put_state (nfa.put s (CharacterClass.invalid_char '/')).2
          (nfa.put s (CharacterClass.invalid_char '/')).2).start_capture
          (nfa.put s (CharacterClass.invalid_char '/')).2).end_capture
          (nfa.put s (CharacterClass.invalid_char '/')).2 := by
      show ((((nfa.put s (CharacterClass.invalid_char '/')).1.put_state
        (nfa.put s (CharacterClass.invalid_char '/')).2
        (nfa.put s (CharacterClass.invalid_char '/')).2).start_capture
        (nfa.put s (CharacterClass.invalid_char '/')).2).end_capture
        (nfa.put s (CharacterClass.invalid_char '/')).2) = _
      rw [e1]
    have hconv2 : (process_dynamic_segment nfa s).2 =
        (nfa.put s (CharacterClass.invalid_char '/')).2 := rfl
    refine ⟨cd, ?_, fun k _ => rfl, ?_, ?_, ?_, ?_⟩
    · rw [hconv]
      exact h1
    · rw [hconv, h2]
    · rw [hconv, hconv2, h2]
      exact hwf.2.2 s _ e2
    · rw [hconv2]
      exact h3
    · intro k
      rw [hconv]
      exact h4 k
  · obtain ⟨cd2, h1, h2, h3, h4, h5⟩ := NfaInv_dyn_alloc nfa cd inv s hs hscap
      (nfa.put s (CharacterClass.invalid_char '/')).1 e2 e3 e4 e5
      (NFA.WF_put nfa s (CharacterClass.invalid_char '/') hwf hs).1
    have hconv : (process_dynamic_segment nfa s).1 =
        (((nfa.put s (CharacterClass.invalid_char '/')).1.put_state
          nfa.states.length nfa.states.length).start_capture
          nfa.states.length).end_capture nfa.states.length := by
      show ((((nfa.put s (CharacterClass.invalid_char '/')).1.put_state
        (nfa.put s (CharacterClass.invalid_char '/')).2
        (nfa.put s (CharacterClass.invalid_char '/')).2).start_capture
        (nfa.put s (CharacterClass.invalid_char '/')).2).end_capture
        (nfa.put s (CharacterClass.invalid_char '/')).2) = _
      rw [e1]
    have hconv2 : (process_dynamic_segment nfa s).2 = nfa.states.length := e1
    refine ⟨cd2, ?_, h2, ?_, ?_, ?_, ?_⟩
    · rw [hconv]
      exact h1
    · rw [hconv, h3]
      omega
    · rw [hconv, hconv2, h3]
      omega
    · rw [hconv2]
      exact h4
    · intro k
      rw [hconv]
      exact h5 k

/-- A static segment (a chain of literal-character `put`s) preserves the
router invariant without changing the capture depth of the cursor. -/
theorem NfaInv_static (segment : List Char) :
    ∀ (nfa : NFA Metadata) (cd : Nat → Nat), NfaInv nfa cd →
    ∀ s, s < nfa.states.length →
    ∃ cd2 : Nat → Nat,
      NfaInv (process_static_segment segment nfa s).1 cd2 ∧
      (∀ k, k < nfa.states.length → cd2 k = cd k) ∧
      nfa.states.length ≤ (process_static_segment segment nfa s).1.states.length ∧
      (process_static_segment segment nfa s).2 <
        (process_static_segment segment nfa s).1.states.length ∧
      cd2 (process_static_segment segment nfa s).2 = cd s ∧
      (∀ k, ((process_static_segment segment nfa s).1.get k).acceptance =
          (nfa.get k).acceptance ∧
        ((process_static_segment segment nfa s).1.get k).metadata =
          (nfa.get k).metadata) := by
  induction segment with
  | nil =>
    intro nfa cd inv s hs
    exact ⟨cd, inv, fun k _ => rfl, le_refl _, hs, rfl, fun k => ⟨rfl, rfl⟩⟩
  | cons ch rest ih =>
    intro nfa cd inv s hs
    have hstep : process_static_segment (ch :: rest) nfa s =
        process_static_segment rest (nfa.put s (CharacterClass.valid_char ch)).1
          (nfa.put s (CharacterClass.valid_char ch)).2 := rfl
    rw [hstep]
    obtain ⟨cd1, hinv1, hagree1, hle1, hlt1, hcd1, hcapf, hacc1⟩ :=
      NfaInv_put_valid nfa cd inv s hs ch
    obtain ⟨cd2, hinv2, hagree2, hle2, hlt2, hcd2, hacc2⟩ :=
      ih _ cd1 hinv1 _ hlt1
    refine ⟨cd2, hinv2, ?_, le_trans hle1 hle2, hlt2, ?_, ?_⟩
    · intro k hk
      rw [hagree2 k (lt_of_lt_of_le hk hle1), hagree1 k hk]
    · rw [hcd2]
      exact hcd1
    · intro k
      exact ⟨((hacc1 k).1) ▸ (hacc2 k).1, ((hacc1 k).2) ▸ (hacc2 k).2⟩

/-- The non-capture status of the root state of an invariant automaton. -/
theorem root_not_capture (nfa : NFA Metadata) (cd : Nat → Nat) (inv : NfaInv nfa cd) :
    (nfa.get 0).start_capture = false := by
  cases hc : (nfa.get 0).start_capture
  · rfl
  · have h1 := (inv.cap_guard 0).mp hc
    rw [inv.root_guard] at h1
    have h2 : (∅ : Finset Char) = {'/'} := by
      simpa [CharacterClass.any, CharacterClass.invalid_char] using h1
    exact absurd h2 (by decide)

/-- The separator step preserves the router invariant; from a non-capture
cursor (or past the first segment) it lands on a non-capture state. -/
theorem NfaInv_sepStep (nfa : NFA Metadata) (cd : Nat → Nat) (inv : NfaInv nfa cd)
    (s i : Nat) (hs : s < nfa.states.length) :
    ∃ cd2 : Nat → Nat,
      NfaInv (sepStep nfa s i).1 cd2 ∧
      (∀ k, k < nfa.states.length → cd2 k = cd k) ∧
      nfa.states.length ≤ (sepStep nfa s i).1.states.length ∧
      (sepStep nfa s i).2 < (sepStep nfa s i).1.states.length ∧
      cd2 (sepStep nfa s i).2 = cd s ∧
      ((0 < i ∨ s = 0) →
        ((sepStep nfa s i).1.get (sepStep nfa s i).2).start_capture = false) ∧
      (∀ k, ((sepStep nfa s i).1.get k).acceptance = (nfa.get k).acceptance ∧
        ((sepStep nfa s i).1.get k).metadata = (nfa.get k).metadata) := by
  unfold sepStep
  by_cases hi : 0 < i
  · rw [if_pos hi]
    obtain ⟨cd1, hinv1, hagree1, hle1, hlt1, hcd1, hcapf, hacc1⟩ :=
      NfaInv_put_valid nfa cd inv s hs '/'
    exact ⟨cd1, hinv1, hagree1, hle1, hlt1, hcd1, fun _ => hcapf, hacc1⟩
  · rw [if_neg hi]
    refine ⟨cd, inv, fun k _ => rfl, le_refl _, hs, rfl, ?_, fun k => ⟨rfl, rfl⟩⟩
    intro h0
    rcases h0 with h0 | h0
    · exact absurd h0 hi
    · rw [h0]
      exact root_not_capture nfa cd inv

/-- The whole `addLoop` preserves the router invariant, keeps the cursor at
the capture depth given by the accumulated parameter-name count, and never
touches acceptance flags or metadata. -/
theorem NfaInv_addLoop (segs : List (List Char)) :
    ∀ (i : Nat) (nfa : NFA Metadata) (state : Nat) (m : Metadata) (cd : Nat → Nat),
    NfaInv nfa cd → state < nfa.states.length →
    (0 < i ∨ state = 0) →
    cd state = m.param_names.length →
    ∃ cd2 : Nat → Nat,
      NfaInv (addLoop segs i nfa state m).1 cd2 ∧
      nfa.states.length ≤ (addLoop segs i nfa state m).1.states.length ∧
      (addLoop segs i nfa state m).2.1 < (addLoop segs i nfa state m).1.states.length ∧
      cd2 (addLoop segs i nfa state m).2.1 =
        (addLoop segs i nfa state m).2.2.param_names.length ∧
      (∀ k, ((addLoop segs i nfa state m).1.get k).acceptance =
          (nfa.get k).acceptance ∧
        ((addLoop segs i nfa state m).1.get k).metadata = (nfa.get k).metadata) := by
  induction segs with
  | nil =>
    intro i nfa state m cd inv hs hi hcd
    exact ⟨cd, inv, le_refl _, hs, hcd, fun k => ⟨rfl, rfl⟩⟩
  | cons seg rest ih =>
    intro i nfa state m cd inv hs hi hcd
    rw [addLoop_cons]
    obtain ⟨cdp, hinvp, hagreep, hlep, hltp, hcdp, hcapp, haccp⟩ :=
      NfaInv_sepStep nfa cd inv state i hs
    by_cases hseg : 0 < seg.length ∧ seg.headD ' ' = ':'
    · rw [if_pos hseg]
      obtain ⟨cdd, hinvd, hagreed, hled, hltd, hcdd, haccd⟩ :=
        NfaInv_dyn (sepStep nfa state i).1 cdp hinvp (sepStep nfa state i).2 hltp
          (hcapp hi)
      have hnames : cdd (process_dynamic_segment (sepStep nfa state i).1
          (sepStep nfa state i).2).2 = (dynMeta m seg).param_names.length := by
        rw [hcdd, hcdp, hcd]
        simp [dynMeta]
      obtain ⟨cd2, hinv2, hle2, hlt2, hcd2, hacc2⟩ :=
        ih (i + 1) _ _ (dynMeta m seg) cdd hinvd hltd (Or.inl (by omega)) hnames
      refine ⟨cd2, hinv2, ?_, hlt2, hcd2, ?_⟩
      · exact le_trans hlep (le_trans hled hle2)
      · intro k
        refine ⟨?_, ?_⟩
        · rw [(hacc2 k).1, (haccd k).1, (haccp k).1]
        · rw [(hacc2 k).2, (haccd k).2, (haccp k).2]
    · rw [if_neg hseg]
      obtain ⟨cds, hinvs, hagrees, hles, hlts, hcds, haccs⟩ :=
        NfaInv_static seg (sepStep nfa state i).1 cdp hinvp (sepStep nfa state i).2 hltp
      have hnames : cds (process_static_segment seg (sepStep nfa state i).1
          (sepStep nfa state i).2).2 = (staMeta m).param_names.length := by
        rw [hcds, hcdp, hcd]
        simp [staMeta]
      obtain ⟨cd2, hinv2, hle2, hlt2, hcd2, hacc2⟩ :=
        ih (i + 1) _ _ (staMeta m) cds hinvs hlts (Or.inl (by omega)) hnames
      refine ⟨cd2, hinv2, ?_, hlt2, hcd2, ?_⟩
      · exact le_trans hlep (le_trans hles hle2)
      · intro k
        refine ⟨?_, ?_⟩
        · rw [(hacc2 k).1, (haccs k).1, (haccp k).1]
        · rw [(hacc2 k).2, (haccs k).2, (haccp k).2]

/-- The empty router satisfies the invariant. -/
theorem RouterInv_new (T : Type) : RouterInv (Router.new : Router T) (fun _ => 0) := by
  have hall : ∀ s, (Router.new : Router T).nfa.get s = State.new 0 CharacterClass.any := by
    intro s
    cases s with
    | zero => rfl
    | succ n => exact List.getD_eq_default _ _ (by simp [Router.new, NFA.new])
  refine ⟨⟨NFA.WF_new, rfl, ?_, ?_, ?_, ?_, rfl, ?_, ?_⟩, ?_⟩
  · intro s j hj
    rw [hall s] at hj
    simp [State.new] at hj
  · intro s
    rw [hall s]
    rfl
  · intro s
    rw [hall s]
    constructor
    · intro h
      exact absurd h (by decide)
    · intro h
      have h2 : (∅ : Finset Char) = {'/'} := by
        simpa [State.new, CharacterClass.any, CharacterClass.invalid_char] using h
      exact absurd h2 (by decide)
  · intro s hs
    rw [hall s] at hs
    simp [State.new] at hs
  · intro s j hj
    rw [hall s] at hj
    simp [State.new] at hj
  · intro s hs
    rw [hall s] at hs
    simp [State.new] at hs
  · intro s hs
    rw [hall s] at hs
    simp [State.new] at hs

/-- `Router.add` preserves the router invariant (with an extended depth
function). -/
theorem RouterInv_add (r : Router T) (cd : Nat → Nat) (inv : RouterInv r cd)
    (route : List Char) (dest : T) (r' : Router T)
    (hadd : r.add route dest = some r') :
    ∃ cd2, RouterInv r' cd2 := by
  obtain ⟨hninv, hhand⟩ := inv
  cases route with
  | nil => exact absurd hadd (by simp [Router.add])
  | cons c rest =>
    have hr' : r' = ⟨((addLoop (splitOn '/' (if c = '/' then rest else c :: rest)) 0
          r.nfa 0 Metadata.new).1.acceptance
          (addLoop (splitOn '/' (if c = '/' then rest else c :: rest)) 0
            r.nfa 0 Metadata.new).2.1).metadata
          (addLoop (splitOn '/' (if c = '/' then rest else c :: rest)) 0
            r.nfa 0 Metadata.new).2.1
          (addLoop (splitOn '/' (if c = '/' then rest else c :: rest)) 0
            r.nfa 0 Metadata.new).2.2,
        treeInsert r.handlers
          (addLoop (splitOn '/' (if c = '/' then rest else c :: rest)) 0
            r.nfa 0 Metadata.new).2.1 dest⟩ := by
      have h2 := hadd
      simp only [Router.add, Option.some.injEq] at h2
      exact h2.symm
    subst hr'
    obtain ⟨cdL, hinvL, hleL, hstL, hcdL, haccL⟩ :=
      NfaInv_addLoop (splitOn '/' (if c = '/' then rest else c :: rest)) 0 r.nfa 0
        Metadata.new cd hninv hninv.wf.1 (Or.inr rfl)
        (by rw [hninv.cd_root]; rfl)
    generalize hL : addLoop (splitOn '/' (if c = '/' then rest else c :: rest)) 0
      r.nfa 0 Metadata.new = L
    rw [hL] at hinvL hleL hstL hcdL haccL
    have hstlt2 : L.2.1 < (L.1.acceptance L.2.1).states.length := by
      rw [NFA.length_acceptance]
      exact hstL
    have gSt : ((L.1.acceptance L.2.1).metadata L.2.1 L.2.2).get L.2.1 =
        { L.1.get L.2.1 with acceptance := true, metadata := some L.2.2 } := by
      rw [NFA.get_metadata_self _ _ _ hstlt2, NFA.get_acceptance_self _ _ hstL]
    have gNe : ∀ k, k ≠ L.2.1 →
        ((L.1.acceptance L.2.1).metadata L.2.1 L.2.2).get k = L.1.get k := by
      intro k hk
      rw [NFA.get_metadata_ne _ _ _ _ hk, NFA.get_acceptance_ne _ _ _ hk]
    have hwf3 : ((L.1.acceptance L.2.1).metadata L.2.1 L.2.2).WF :=
      NFA.WF_metadata _ _ _ (NFA.WF_acceptance _ _ hinvL.wf)
    have hnext : ∀ k, (((L.1.acceptance L.2.1).metadata L.2.1 L.2.2).get k).next_states =
        (L.1.get k).next_states := by
      intro k
      by_cases hk : k = L.2.1
      · rw [hk, gSt]
      · rw [gNe k hk]
    have hstart : ∀ k, (((L.1.acceptance L.2.1).metadata L.2.1 L.2.2).get k).start_capture =
        (L.1.get k).start_capture := by
      intro k
      by_cases hk : k = L.2.1
      · rw [hk, gSt]
      · rw [gNe k hk]
    have hend : ∀ k, (((L.1.acceptance L.2.1).metadata L.2.1 L.2.2).get k).end_capture =
        (L.1.get k).end_capture := by
      intro k
      by_cases hk : k = L.2.1
      · rw [hk, gSt]
      · rw [gNe k hk]
    have hchars : ∀ k, (((L.1.acceptance L.2.1).metadata L.2.1 L.2.2).get k).chars =
        (L.1.get k).chars := by
      intro k
      by_cases hk : k = L.2.1
      · rw [hk, gSt]
      · rw [gNe k hk]
    refine ⟨cdL, ⟨hwf3, ?_, ?_, ?_, ?_, ?_, hinvL.cd_root, ?_, ?_⟩, ?_⟩
    · rw [hchars 0]
      exact hinvL.root_guard
    · intro k j hj
      rw [hnext k] at hj
      exact hinvL.trans_pos k j hj
    · intro k
      rw [hstart k, hend k]
      exact hinvL.flags_eq k
    · intro k
      rw [hstart k, hchars k]
      exact hinvL.cap_guard k
    · intro k hk
      rw [hnext k] at hk
      rw [hstart k]
      exact hinvL.selfloop_cap k hk
    · intro k j hj hjk
      rw [hnext k] at hj
      rw [hstart j]
      exact hinvL.cd_edge k j hj hjk
    · intro k hk
      by_cases hkst : k = L.2.1
      · refine ⟨L.2.2, ?_, ?_⟩
        · rw [hkst, gSt]
        · rw [hkst]
          exact hcdL.symm
      · have hacck : (L.1.get k).acceptance = true := by
          rw [gNe k hkst] at hk
          exact hk
        obtain ⟨md, h1, h2⟩ := hinvL.accept_md k hacck
        refine ⟨md, ?_, h2⟩
        rw [gNe k hkst]
        exact h1
    · intro k hk
      by_cases hkst : k = L.2.1
      · rw [hkst]
        exact ⟨dest, treeFind_insert_self _ _ _⟩
      · rw [treeFind_insert_ne _ _ _ _ hkst]
        apply hhand
        have h1 : (L.1.get k).acceptance = true := by
          rw [gNe k hkst] at hk
          exact hk
        rw [← (haccL k).1]
        exact h1

/-- Folding any route list over `add` from the empty router yields an
invariant-satisfying router. -/
theorem RouterInv_buildFrom :
    ∀ (routes : List (List Char × T)) (r r' : Router T) (cd : Nat → Nat),
    RouterInv r cd → r.buildFrom routes = some r' → ∃ cd2, RouterInv r' cd2 := by
  intro routes
  induction routes with
  | nil =>
    intro r r' cd inv h
    obtain rfl : r = r' := by simpa [Router.buildFrom] using h
    exact ⟨cd, inv⟩
  | cons pd rest ih =>
    intro r r' cd inv h
    obtain ⟨p, d⟩ := pd
    simp only [Router.buildFrom] at h
    rcases hadd : r.add p d with _ | r1
    · rw [hadd] at h
      exact absurd h (by simp)
    · rw [hadd] at h
      obtain ⟨cd1, inv1⟩ := RouterInv_add r cd inv p d r1 hadd
      exact ih r1 r' cd1 inv1 h

/-- C8: for every router built solely through `add` (folded by `buildFrom`
from the empty router) and every successful `recognize` call, the winning
state's id is a key of the handler table (so the handler lookup's `unwrap`
never fails), its metadata is present, and the number of captures extracted
from the winning trace equals the number of parameter names recorded in that
accepting state's metadata. -/
theorem claim8_recognize_safety (T : Type) (routes : List (List Char × T))
    (r : Router T) (hb : Router.new.buildFrom routes = some r)
    (path : List Char) (m : RouterMatch T)
    (hrec : r.recognize path = some (Except.ok m)) :
    m.handler.isSome = true ∧
    ∃ nm, r.nfa.process (stripLeadingSlash path) r.cmp = Except.ok nm ∧
      m.handler = treeFind r.handlers nm.state ∧
      ∃ md, (r.nfa.get nm.state).metadata = some md ∧
        nm.captures.length = md.param_names.length := by
  obtain ⟨cd, hninv, hhand⟩ :=
    RouterInv_buildFrom routes Router.new r (fun _ => 0) (RouterInv_new T) hb
  cases path with
  | nil => exact absurd hrec (by simp [Router.recognize])
  | cons c rest =>
    simp only [Router.recognize] at hrec
    rcases hproc : r.nfa.process (if c = '/' then rest else c :: rest)
        (fun a b => Metadata.cmp (r.sortKey a) (r.sortKey b)) with e | nm
    · rw [hproc] at hrec
      have h2 : (some (Except.error e) : Option (Except String (RouterMatch T))) =
          some (Except.ok m) := hrec
      simp at h2
    · rw [hproc] at hrec
      have h2 : (some (Except.ok (⟨treeFind r.handlers nm.state,
          (List.zip ((r.nfa.get nm.state).metadata.getD Metadata.new).param_names
            (nm.captures.map String.mk)).foldl
            (fun acc p => acc.insert p.1 p.2) Params.new⟩ : RouterMatch T)) :
          Option (Except String (RouterMatch T))) = some (Except.ok m) := hrec
      have hm := Except.ok.inj (Option.some.inj h2)
      obtain ⟨cur, trace, hcons, hmemf, hstate, hcaps⟩ :=
        NFA.process_ok_inv r.nfa (if c = '/' then rest else c :: rest)
          (fun a b => Metadata.cmp (r.sortKey a) (r.sortKey b)) nm hproc
      have hmem := List.mem_filter.mp hmemf
      have hacc : (r.nfa.get (trace.getLastD 0)).acceptance = true := by
        simpa using hmem.2
      have hvalid : ValidTrace r.nfa trace :=
        NFA.consume_valid r.nfa hninv.wf _ [[0]] cur
          (fun t ht => by
            simp only [List.mem_singleton] at ht
            subst ht
            exact ⟨rfl, List.chain'_singleton 0⟩)
          hcons trace hmem.1
      have hbdd : ∀ x ∈ trace, x < r.nfa.states.length :=
        NFA.consume_bounded r.nfa hninv.wf _ [[0]] cur
          (fun t ht x hx => by
            simp only [List.mem_singleton] at ht
            subst ht
            obtain rfl : x = 0 := by simpa using hx
            exact hninv.wf.1)
          hcons trace hmem.1
      have htne : trace ≠ [] := by
        intro h0
        rw [h0] at hvalid
        exact absurd hvalid.1 (by simp)
      have hlt : trace.getLastD 0 < r.nfa.states.length :=
        hbdd _ (getLastD_mem trace 0 htne)
      have hstate2 : nm.state = trace.getLastD 0 := by
        rw [hstate, hninv.wf.2.1 _ hlt]
      obtain ⟨hd, htf⟩ := hhand (trace.getLastD 0) hacc
      obtain ⟨md, hmd, hplen⟩ := hninv.accept_md (trace.getLastD 0) hacc
      have hmh : m.handler = treeFind r.handlers nm.state := by rw [← hm]
      have hclen : nm.captures.length = md.param_names.length := by
        rw [hcaps, valid_trace_captures r.nfa cd hninv _ trace hvalid, hplen]
      refine ⟨?_, nm, hproc, hmh, md, ?_, hclen⟩
      · rw [hmh, hstate2, htf]
        rfl
      · rw [hstate2]
        exact hmd

/-- Witness for C8 at the router holding only `"/posts/:id"` and the path
`"/posts/7"`. -/
theorem claim8_witness :
    ((⟨some "id", ⟨[("id", "7")]⟩⟩ : RouterMatch String).handler).isSome = true :=
  (claim8_recognize_safety String [("/posts/:id".data, "id")] routerId rfl
    "/posts/7".data ⟨some "id", ⟨[("id", "7")]⟩⟩ rfl).1

end RouteRecognizer
